import Mathlib

/-!
Verification of the observation-and-analytics pipeline of the backtester
(`src/reporting`): streaming statistic accumulators, the recorder/observer
write path, the paginated loader, the report engine, and the LTTB-based
downsampler.  Python floats are modelled as exact rationals, `pandas`
timestamps as integers (days), one CSV row as a record of its relevant
columns, and a page/batch as a list of rows.  `round(x, n)` is modelled as
exact rounding of a rational to `n` decimal places.
-/

namespace Backtester

/-- Model of Python `round(x, 4)` on the exact rational value. -/
def round4 (q : ℚ) : ℚ := (round (q * 10000) : ℤ) / 10000

/-- Model of Python `round(x, 2)` on the exact rational value. -/
def round2 (q : ℚ) : ℚ := (round (q * 100) : ℤ) / 100

/-! ## Welford's online mean/variance (`WelfordAccumulator`) -/

/-- State of `WelfordAccumulator`: `count`, `mean`, `m2`. -/
structure WelfordState where
  count : ℕ
  mean : ℚ
  m2 : ℚ
  deriving Repr, DecidableEq

/-- `WelfordAccumulator.__init__`. -/
def welfordInit : WelfordState := ⟨0, 0, 0⟩

/-- `WelfordAccumulator.update`: `count += 1; delta = x - mean;
`mean += delta / count; delta2 = x - mean; m2 += delta * delta2`. -/
def welfordUpdate (s : WelfordState) (x : ℚ) : WelfordState :=
  let count := s.count + 1
  let delta := x - s.mean
  let mean := s.mean + delta / count
  let delta2 := x - mean
  ⟨count, mean, s.m2 + delta * delta2⟩

/-- Feeding a finite sequence of values one at a time. -/
def welfordFold (xs : List ℚ) : WelfordState := xs.foldl welfordUpdate welfordInit

/-- `WelfordAccumulator.variance`: `m2 / count if count > 1 else 0`. -/
def welfordVariance (s : WelfordState) : ℚ :=
  if 1 < s.count then s.m2 / s.count else 0

/-- `WelfordAccumulator.std`: `sqrt(variance)` (real-valued). -/
noncomputable def welfordStd (s : WelfordState) : ℝ :=
  Real.sqrt (welfordVariance s)

/-- Closed form of the Welford recurrence: after `n` values with sum `S` and
sum of squares `Q`, the state is `(n, S / n, Q - S ^ 2 / n)`. -/
theorem welfordFold_closed (xs : List ℚ) :
    (welfordFold xs).count = xs.length ∧
    (welfordFold xs).mean = xs.sum / xs.length ∧
    (welfordFold xs).m2 =
      (xs.map (fun x => x ^ 2)).sum - xs.sum ^ 2 / xs.length := by
  induction xs using List.reverseRecOn with
  | nil => simp [welfordFold, welfordInit]
  | append_singleton xs x ih =>
    obtain ⟨hc, hm, h2⟩ := ih
    have hfold : welfordFold (xs ++ [x]) = welfordUpdate (welfordFold xs) x := by
      simp [welfordFold]
    rcases Nat.eq_zero_or_pos xs.length with h0 | hpos
    · have hnil : xs = [] := List.length_eq_zero.mp h0
      subst hnil
      simp [welfordFold, welfordInit, welfordUpdate]
    · have hn : (xs.length : ℚ) ≠ 0 := by exact_mod_cast Nat.pos_iff_ne_zero.mp hpos
      have hn1 : ((xs.length : ℚ) + 1) ≠ 0 := by positivity
      refine ⟨by simp [hfold, welfordUpdate, hc], ?_, ?_⟩
      · simp only [hfold, welfordUpdate, hc, hm, List.sum_append, List.length_append,
          List.sum_cons, List.sum_nil, List.length_cons, List.length_nil]
        push_cast
        field_simp
        ring
      · simp only [hfold, welfordUpdate, hc, hm, h2, List.sum_append, List.length_append,
          List.map_append, List.sum_cons, List.sum_nil, List.length_cons, List.length_nil,
          List.map_cons, List.map_nil]
        push_cast
        field_simp
        ring

/-- Sum of squared deviations from a constant, expanded. -/
theorem sum_sq_dev (c : ℚ) (xs : List ℚ) :
    (xs.map (fun x => (x - c) ^ 2)).sum =
      (xs.map (fun x => x ^ 2)).sum - 2 * c * xs.sum + xs.length * c ^ 2 := by
  induction xs with
  | nil => simp
  | cons y ys ih =>
    simp only [List.map_cons, List.sum_cons, List.length_cons, ih]
    push_cast
    ring

/-- `welfordUpdate` increments `m2` by `(x - mean) ^ 2 * count / (count + 1)`. -/
theorem welfordUpdate_m2 (s : WelfordState) (x : ℚ) :
    (welfordUpdate s x).m2 =
      s.m2 + (x - s.mean) ^ 2 * s.count / (s.count + 1) := by
  have h : ((s.count : ℚ) + 1) ≠ 0 := by positivity
  simp only [welfordUpdate]
  push_cast
  field_simp
  ring

theorem welford_m2_nonneg_aux (xs : List ℚ) (s : WelfordState) (h : 0 ≤ s.m2) :
    0 ≤ (xs.foldl welfordUpdate s).m2 := by
  induction xs generalizing s with
  | nil => exact h
  | cons x xs ih =>
    refine ih _ ?_
    rw [welfordUpdate_m2]
    have : (0 : ℚ) ≤ (x - s.mean) ^ 2 * s.count / (s.count + 1) := by positivity
    linarith

/-- C7: fed one value at a time, the Welford accumulator's state follows the
recurrence `count += 1; delta = x - mean; mean += delta / count;
delta2 = x - mean; m2 += delta * delta2`; afterwards `count` is the number of
inputs, `mean` their arithmetic mean, and `variance()` the population variance
(`m2 / count` for `count > 1`, else `0`), with `std() = sqrt(variance)`.
Over `[1,2,3,4,5]` it yields mean `3`, population variance `2`,
stdev `sqrt 2`. -/
theorem C7_welford_functional_correctness :
    (∀ xs : List ℚ,
      (welfordFold xs).count = xs.length ∧
      (welfordFold xs).mean = xs.sum / xs.length ∧
      welfordVariance (welfordFold xs) =
        (xs.map (fun x => (x - xs.sum / xs.length) ^ 2)).sum / xs.length) ∧
    (welfordFold [1, 2, 3, 4, 5]).mean = 3 ∧
    welfordVariance (welfordFold [1, 2, 3, 4, 5]) = 2 ∧
    welfordStd (welfordFold [1, 2, 3, 4, 5]) = Real.sqrt 2 := by
  refine ⟨fun xs => ?_, ?_, ?_, ?_⟩
  · obtain ⟨hc, hm, h2⟩ := welfordFold_closed xs
    refine ⟨hc, hm, ?_⟩
    rw [sum_sq_dev, welfordVariance, hc, h2]
    rcases Nat.lt_or_ge xs.length 2 with hlt | hge
    · interval_cases h : xs.length
      · have hnil : xs = [] := List.length_eq_zero.mp h
        subst hnil
        simp
      · obtain ⟨x, hx⟩ := List.length_eq_one.mp h
        subst hx
        simp
        ring
    · rw [if_pos (by omega : 1 < xs.length)]
      have hn : (xs.length : ℚ) ≠ 0 := by
        exact_mod_cast Nat.pos_iff_ne_zero.mp (lt_of_lt_of_le Nat.zero_lt_two hge)
      field_simp
      ring
  · norm_num [welfordFold, welfordUpdate, welfordInit]
  · norm_num [welfordFold, welfordUpdate, welfordInit, welfordVariance]
  · have h2 : welfordVariance (welfordFold [1, 2, 3, 4, 5]) = 2 := by
      norm_num [welfordFold, welfordUpdate, welfordInit, welfordVariance]
    rw [welfordStd, h2]
    norm_num

/-- C10: the increment `delta * delta2` added to `M2` on each update is
nonnegative, so `M2 ≥ 0` is invariant over every finite input sequence; hence
`variance() ≥ 0` and `std()` never takes the square root of a negative
number. -/
theorem C10_welford_m2_invariant :
    ∀ xs : List ℚ,
      0 ≤ (welfordFold xs).m2 ∧ 0 ≤ welfordVariance (welfordFold xs) ∧
      ((welfordStd (welfordFold xs)) ^ 2 : ℝ) = welfordVariance (welfordFold xs) := by
  intro xs
  have hm2 : 0 ≤ (welfordFold xs).m2 := welford_m2_nonneg_aux xs welfordInit le_rfl
  have hvar : 0 ≤ welfordVariance (welfordFold xs) := by
    rw [welfordVariance]
    split
    · exact div_nonneg hm2 (by positivity)
    · exact le_rfl
  refine ⟨hm2, hvar, ?_⟩
  rw [welfordStd, Real.sq_sqrt]
  exact_mod_cast hvar

/-! ## State-observation rows

One row of the persisted state stream, restricted to the columns the
statistics and the downsampler read: `dt`, `ticker`, `cap_cash`,
`h_num_shares`, `s_close`.  `pd.to_numeric(..., errors="coerce").fillna(0)`
makes the numeric columns total, so they are plain rationals here. -/

structure SRow where
  dt : ℤ
  ticker : String
  cash : ℚ
  shares : ℚ
  close : ℚ
  deriving Repr, DecidableEq

/-- The derived portfolio value `_pv = cap_cash + h_num_shares * s_close`. -/
def pv (r : SRow) : ℚ := r.cash + r.shares * r.close

/-- Model of `batch.sort_values("dt")` (a stable sort by the timestamp). -/
def sortByDt (l : List SRow) : List SRow :=
  l.insertionSort (fun a b => a.dt ≤ b.dt)

theorem sortByDt_perm (l : List SRow) : List.Perm (sortByDt l) l :=
  List.perm_insertionSort _ l

theorem sortByDt_eq_of_sorted {l : List SRow}
    (h : l.Pairwise (fun a b => a.dt ≤ b.dt)) : sortByDt l = l :=
  List.Sorted.insertionSort_eq h

/-- Fold of a page-level update over all pages is the row-level fold over the
concatenation of the (per-page transformed) pages. -/
theorem foldl_pages {α β : Type} (f : β → α → β) (g : List α → List α)
    (init : β) (L : List (List α)) :
    L.foldl (fun s l => (g l).foldl f s) init = (L.map g).flatten.foldl f init := by
  induction L generalizing init with
  | nil => rfl
  | cons p ps ih => simp [ih, List.foldl_append]

theorem join_map_sortByDt_perm (pages : List (List SRow)) :
    List.Perm (pages.map sortByDt).flatten pages.flatten := by
  induction pages with
  | nil => rfl
  | cons p ps ih =>
    simpa using (sortByDt_perm p).append ih

/-! ## `TotalReturnAccumulator` -/

/-- State of `TotalReturnAccumulator`: the `(timestamp, portfolio value)`
pair with the smallest timestamp seen so far and the one with the largest
(`_first_ts`/`_first_pv` and `_last_ts`/`_last_pv`, always set together). -/
structure TRState where
  first : Option (ℤ × ℚ)
  last : Option (ℤ × ℚ)
  deriving Repr, DecidableEq

def trInit : TRState := ⟨none, none⟩

/-- The per-row body of `TotalReturnAccumulator.update`. -/
def trStep (s : TRState) (r : SRow) : TRState :=
  let s1 : TRState :=
    match s.first with
    | none => { s with first := some (r.dt, pv r) }
    | some (t, _) => if r.dt < t then { s with first := some (r.dt, pv r) } else s
  match s1.last with
  | none => { s1 with last := some (r.dt, pv r) }
  | some (t, _) => if t < r.dt then { s1 with last := some (r.dt, pv r) } else s1

/-- `TotalReturnAccumulator.update`: derive `_pv`, sort the batch by `dt`,
then scan the rows. -/
def trUpdate (s : TRState) (batch : List SRow) : TRState :=
  (sortByDt batch).foldl trStep s

def trFeed (pages : List (List SRow)) : TRState := pages.foldl trUpdate trInit

/-- `TotalReturnAccumulator.result`: `None` when nothing was seen or the
first value is zero, else `round((last - first) / first * 100, 4)`. -/
def trResult (s : TRState) : Option ℚ :=
  match s.first, s.last with
  | some (_, f), some (_, l) =>
      if f = 0 then none else some (round4 ((l - f) / f * 100))
  | _, _ => none

theorem trFold_extrema (l : List SRow) :
    (l = [] → l.foldl trStep trInit = trInit) ∧
    (l ≠ [] → ∃ rf ∈ l, ∃ rl ∈ l,
      (∀ r ∈ l, rf.dt ≤ r.dt) ∧ (∀ r ∈ l, r.dt ≤ rl.dt) ∧
      l.foldl trStep trInit = ⟨some (rf.dt, pv rf), some (rl.dt, pv rl)⟩) := by
  induction l using List.reverseRecOn with
  | nil => exact ⟨fun _ => rfl, fun h => absurd rfl h⟩
  | append_singleton l x ih =>
    refine ⟨fun h => absurd h (by simp), fun _ => ?_⟩
    rw [List.foldl_append]
    rcases eq_or_ne l [] with hnil | hne
    · subst hnil
      exact ⟨x, by simp, x, by simp, by simp, by simp,
        by simp [trStep, trInit]⟩
    · obtain ⟨rf, hrf, rl, hrl, hfmin, hlmax, hstate⟩ := ih.2 hne
      rw [hstate]
      by_cases hlt : x.dt < rf.dt
      · by_cases hgt : rl.dt < x.dt
        · exact ⟨x, by simp, x, by simp,
            fun r hr => by
              rcases List.mem_append.mp hr with hr | hr
              · exact le_of_lt (lt_of_lt_of_le hlt (hfmin r hr))
              · simp at hr; subst hr; omega,
            fun r hr => by
              rcases List.mem_append.mp hr with hr | hr
              · exact le_of_lt (lt_of_le_of_lt (hlmax r hr) hgt)
              · simp at hr; subst hr; omega,
            by simp [trStep, hlt, hgt]⟩
        · exact ⟨x, by simp, rl, List.mem_append_left _ hrl,
            fun r hr => by
              rcases List.mem_append.mp hr with hr | hr
              · exact le_of_lt (lt_of_lt_of_le hlt (hfmin r hr))
              · simp at hr; subst hr; omega,
            fun r hr => by
              rcases List.mem_append.mp hr with hr | hr
              · exact hlmax r hr
              · simp at hr; subst hr; omega,
            by simp [trStep, hlt, hgt]⟩
      · by_cases hgt : rl.dt < x.dt
        · exact ⟨rf, List.mem_append_left _ hrf, x, by simp,
            fun r hr => by
              rcases List.mem_append.mp hr with hr | hr
              · exact hfmin r hr
              · simp at hr; subst hr; omega,
            fun r hr => by
              rcases List.mem_append.mp hr with hr | hr
              · exact le_of_lt (lt_of_le_of_lt (hlmax r hr) hgt)
              · simp at hr; subst hr; omega,
            by simp [trStep, hlt, hgt]⟩
        · exact ⟨rf, List.mem_append_left _ hrf, rl, List.mem_append_left _ hrl,
            fun r hr => by
              rcases List.mem_append.mp hr with hr | hr
              · exact hfmin r hr
              · simp at hr; subst hr; omega,
            fun r hr => by
              rcases List.mem_append.mp hr with hr | hr
              · exact hlmax r hr
              · simp at hr; subst hr; omega,
            by simp [trStep, hlt, hgt]⟩

/-- C8 (amended: the code rounds the percentage to 4 decimal places):
over any pages in any arrival order, `TotalReturnAccumulator` selects
`(timestamp, value)` pairs with the minimum and the maximum timestamp across
all rows, and `result()` is `round((last - first) / first * 100, 4)`, `None`
when the first value is zero or no row was seen; in particular first value
`100` at `t0` and last value `150` at `t10`, supplied out of chronological
order across pages, yield `50`. -/
theorem C8_total_return_extrema :
    (∀ pages : List (List SRow),
      (pages.flatten = [] → trResult (trFeed pages) = none) ∧
      (pages.flatten ≠ [] → ∃ rf ∈ pages.flatten, ∃ rl ∈ pages.flatten,
        (∀ r ∈ pages.flatten, rf.dt ≤ r.dt) ∧ (∀ r ∈ pages.flatten, r.dt ≤ rl.dt) ∧
        trResult (trFeed pages) =
          if pv rf = 0 then none
          else some (round4 ((pv rl - pv rf) / pv rf * 100)))) ∧
    trResult (trFeed [[⟨10, "A", 150, 0, 0⟩], [⟨0, "A", 100, 0, 0⟩]]) = some 50 := by
  constructor
  · intro pages
    have hfeed : trFeed pages = (pages.map sortByDt).flatten.foldl trStep trInit :=
      foldl_pages trStep sortByDt trInit pages
    have hperm : List.Perm (pages.map sortByDt).flatten pages.flatten :=
      join_map_sortByDt_perm pages
    constructor
    · intro hnil
      have : (pages.map sortByDt).flatten = [] :=
        List.eq_nil_of_length_eq_zero (by rw [hperm.length_eq, hnil]; rfl)
      rw [hfeed, this]
      rfl
    · intro hne
      have hne' : (pages.map sortByDt).flatten ≠ [] := by
        intro h
        exact hne (List.eq_nil_of_length_eq_zero (by rw [← hperm.length_eq, h]; rfl))
      obtain ⟨rf, hrf, rl, hrl, hfmin, hlmax, hstate⟩ :=
        (trFold_extrema _).2 hne'
      refine ⟨rf, hperm.mem_iff.mp hrf, rl, hperm.mem_iff.mp hrl,
        fun r hr => hfmin r (hperm.mem_iff.mpr hr),
        fun r hr => hlmax r (hperm.mem_iff.mpr hr), ?_⟩
      rw [hfeed, hstate]
      rfl
  · norm_num [trFeed, trUpdate, sortByDt, List.insertionSort, List.orderedInsert,
      trStep, trInit, pv, trResult, round4, round_eq]

/-- C8, counterexample to the claim as stated: with first value `3` and
last value `4`, `result()` is the rounded `33.3333`, not the exact
`(4 - 3) / 3 * 100 = 100/3`. -/
theorem C8_rounding_counterexample :
    trResult (trFeed [[⟨0, "A", 3, 0, 0⟩], [⟨1, "A", 4, 0, 0⟩]]) =
      some (333333 / 10000) ∧
    (333333 / 10000 : ℚ) ≠ (4 - 3) / 3 * 100 := by
  constructor
  · norm_num [trFeed, trUpdate, sortByDt, List.insertionSort, List.orderedInsert,
      trStep, trInit, pv, trResult, round4, round_eq]
  · norm_num

/-- Witness for C8: the amended statement applied at the concrete
out-of-chronological-order pages. -/
theorem C8_total_return_witness :
    ∃ rf ∈ [[(⟨10, "A", 150, 0, 0⟩ : SRow)], [⟨0, "A", 100, 0, 0⟩]].flatten,
      ∃ rl ∈ [[(⟨10, "A", 150, 0, 0⟩ : SRow)], [⟨0, "A", 100, 0, 0⟩]].flatten,
      (∀ r ∈ [[(⟨10, "A", 150, 0, 0⟩ : SRow)], [⟨0, "A", 100, 0, 0⟩]].flatten,
        rf.dt ≤ r.dt) ∧
      (∀ r ∈ [[(⟨10, "A", 150, 0, 0⟩ : SRow)], [⟨0, "A", 100, 0, 0⟩]].flatten,
        r.dt ≤ rl.dt) ∧
      trResult (trFeed [[⟨10, "A", 150, 0, 0⟩], [⟨0, "A", 100, 0, 0⟩]]) =
        if pv rf = 0 then none
        else some (round4 ((pv rl - pv rf) / pv rf * 100)) :=
  (C8_total_return_extrema.1 _).2 (by simp)

/-! ## `StreamingReturnsAccumulator` -/

theorem length_dropWhile_le {α : Type} (p : α → Bool) (l : List α) :
    (l.dropWhile p).length ≤ l.length := by
  induction l with
  | nil => simp
  | cons a l ih =>
    rw [List.dropWhile_cons]
    split
    · exact Nat.le_succ_of_le ih
    · exact le_rfl

/-- Model of `b.groupby("dt")` followed by `group["_pv"].max()` on a batch
already sorted by `dt`: consecutive pairs with equal timestamp are merged,
keeping the maximum value; groups are emitted in ascending timestamp order. -/
def groupMaxByDt : List (ℤ × ℚ) → List (ℤ × ℚ)
  | [] => []
  | (t, v) :: rest =>
      let same := rest.takeWhile (fun p => p.1 == t)
      let other := rest.dropWhile (fun p => p.1 == t)
      (t, (same.map Prod.snd).foldl max v) :: groupMaxByDt other
termination_by l => l.length
decreasing_by
  simp only [List.length_cons]
  exact Nat.lt_succ_of_le (length_dropWhile_le _ rest)

/-- State of `StreamingReturnsAccumulator`: the accumulated
`(timestamp, portfolio value)` series, the two Welford accumulators (all
returns and downside returns), the first/last timestamps and the running
number of computed return periods. -/
structure SRSState where
  pvSeries : List (ℤ × ℚ)
  allR : WelfordState
  downR : WelfordState
  firstTs : Option ℤ
  lastTs : Option ℤ
  numReturns : ℕ
  deriving Repr, DecidableEq

def srInit : SRSState := ⟨[], welfordInit, welfordInit, none, none, 0⟩

/-- The per-group body of `StreamingReturnsAccumulator.update`: append the
`(timestamp, max pv)` pair to the series, set `_first_ts` if unset, and
overwrite `_last_ts`. -/
def srAbsorb (st : SRSState) (tv : ℤ × ℚ) : SRSState :=
  { st with
    pvSeries := st.pvSeries ++ [tv],
    firstTs := some (st.firstTs.getD tv.1),
    lastTs := some tv.1 }

/-- `StreamingReturnsAccumulator.update`: sort the batch by `dt`, aggregate
by timestamp with the maximum `_pv`, append to the series and update the
first/last timestamps. -/
def srUpdate (s : SRSState) (batch : List SRow) : SRSState :=
  let pairs := (sortByDt batch).map (fun r => (r.dt, pv r))
  (groupMaxByDt pairs).foldl srAbsorb s

/-- Feeding every page of a run to the streaming-returns accumulator. -/
def srFeed (pages : List (List SRow)) : SRSState := pages.foldl srUpdate srInit

/-- Model of `sorted(self._pv_series, key=lambda x: x[0])`. -/
def sortPairs (l : List (ℤ × ℚ)) : List (ℤ × ℚ) :=
  l.insertionSort (fun a b => a.1 ≤ b.1)

/-- `StreamingReturnsAccumulator._compute_returns`: derive the sequential
period returns from the sorted series and feed them into the Welford
accumulators.  Note that the stored series is left in place and the Welford
states are mutated, so every call re-adds all returns. -/
def computeReturns (s : SRSState) : SRSState :=
  if s.pvSeries.length < 2 then s
  else
    let sorted := sortPairs s.pvSeries
    (sorted.zip sorted.tail).foldl
      (fun st pc =>
        if 0 < pc.1.2 then
          let ret := (pc.2.2 - pc.1.2) / pc.1.2
          { st with
            allR := welfordUpdate st.allR ret,
            numReturns := st.numReturns + 1,
            downR := if ret < 0 then welfordUpdate st.downR ret else st.downR }
        else st) s

/-- The state after one `result()` call: `result()` evaluates `sharpe()`,
`sortino()` and `volatility()`, each of which calls `_compute_returns`. -/
def srResultState (s : SRSState) : SRSState :=
  computeReturns (computeReturns (computeReturns s))

/-- The `num_return_periods` field of the dict returned by `result()`
(read after the three `_compute_returns` calls). -/
def srNumReturnPeriods (s : SRSState) : ℕ := (srResultState s).numReturns

/-- C1 is contradicted by the code: `_compute_returns` is documented as
"called once at result()" but is not memoized — `result()` triggers it three
times (via `sharpe`, `sortino`, `volatility`) and a repeated `result()` call
re-feeds every sequential return into the Welford accumulators again.  Fed a
single page with portfolio values 100, 110, 105 at days 0, 1, 2 (two return
periods), the first `result()` reports `num_return_periods = 6` and a second
`result()` with no intervening `update` reports `12`, so `result()` is not
idempotent. -/
theorem C1_result_not_idempotent :
    srNumReturnPeriods (srUpdate srInit
      [⟨0, "A", 100, 0, 0⟩, ⟨1, "A", 110, 0, 0⟩, ⟨2, "A", 105, 0, 0⟩]) = 6 ∧
    srNumReturnPeriods (srResultState (srUpdate srInit
      [⟨0, "A", 100, 0, 0⟩, ⟨1, "A", 110, 0, 0⟩, ⟨2, "A", 105, 0, 0⟩])) = 12 := by
  constructor <;>
    norm_num [srNumReturnPeriods, srResultState, computeReturns, srUpdate, srAbsorb,
      srInit, sortPairs, sortByDt, List.insertionSort, List.orderedInsert,
      groupMaxByDt, pv, welfordUpdate, welfordInit]

/-! ## Trade-observation rows and trade accumulators -/

/-- One row of the persisted trade stream: `dt`, `ticker`, `a_type`. -/
structure TRow where
  dt : ℤ
  ticker : String
  atype : String
  deriving Repr, DecidableEq

/-- Model of `batch.sort_values("dt")` for trade rows. -/
def sortByDtT (l : List TRow) : List TRow :=
  l.insertionSort (fun a b => a.dt ≤ b.dt)

theorem sortByDtT_eq_of_sorted {l : List TRow}
    (h : l.Pairwise (fun a b => a.dt ≤ b.dt)) : sortByDtT l = l :=
  List.Sorted.insertionSort_eq h

/-! ### `FinalPortfolioAccumulator` -/

/-- `FinalPortfolioAccumulator.update`: overwrite the retained batch with the
incoming one unless it is empty. -/
def fpUpdate (st : Option (List SRow)) (batch : List SRow) : Option (List SRow) :=
  if batch.isEmpty then st else some batch

def fpFeed (pages : List (List SRow)) : Option (List SRow) :=
  pages.foldl fpUpdate none

/-- `FinalPortfolioAccumulator.result`: sort the retained batch by `dt` and
report `(cash, equity_value, total_value)` of its final row, each rounded. -/
def fpResult (st : Option (List SRow)) : Option (ℚ × ℚ × ℚ) :=
  match st with
  | none => none
  | some b =>
      match (sortByDt b).getLast? with
      | none => none
      | some r =>
          some (round4 r.cash, round4 (r.shares * r.close),
            round4 (r.cash + r.shares * r.close))

/-! ### `AvgHoldingPeriodAccumulator` -/

/-- State of `AvgHoldingPeriodAccumulator`: per-ticker FIFO queues of open
buy timestamps (`defaultdict(deque)`) and the recorded durations. -/
structure AHPState where
  openBuys : String → List ℤ
  durations : List ℤ

def ahpInit : AHPState := ⟨fun _ => [], []⟩

/-- The per-row body of `AvgHoldingPeriodAccumulator.update`: a buy enqueues
its timestamp; a sell pops the oldest unmatched buy of the same ticker (if
any) and records the elapsed duration. -/
def ahpStep (st : AHPState) (r : TRow) : AHPState :=
  let a := r.atype.toLower
  if a = "buy" then
    { st with
      openBuys := fun t =>
        if t = r.ticker then st.openBuys r.ticker ++ [r.dt] else st.openBuys t }
  else if a = "sell" then
    match st.openBuys r.ticker with
    | [] => st
    | b :: rest =>
        { openBuys := fun t => if t = r.ticker then rest else st.openBuys t,
          durations := st.durations ++ [r.dt - b] }
  else st

def ahpUpdate (st : AHPState) (batch : List TRow) : AHPState :=
  (sortByDtT batch).foldl ahpStep st

def ahpFeed (pages : List (List TRow)) : AHPState :=
  pages.foldl ahpUpdate ahpInit

/-- `AvgHoldingPeriodAccumulator.result`: `None` with no recorded durations,
else the average duration reported in hours/days/weeks (rounded to 2
places).  A duration of `d` days is `d * 86400` seconds. -/
def ahpResult (st : AHPState) : Option (ℚ × ℚ × ℚ) :=
  if st.durations.isEmpty then none
  else
    let secs : ℚ := ((st.durations.map (fun d => (d : ℚ) * 86400)).sum) /
      st.durations.length
    some (round2 (secs / 3600), round2 (secs / 86400), round2 (secs / 604800))

/-! ### `ExposureTimeAccumulator` -/

structure ExpState where
  total : ℕ
  exposed : ℕ
  deriving Repr, DecidableEq

def expInit : ExpState := ⟨0, 0⟩

/-- `ExposureTimeAccumulator.update`: count rows and rows with
`h_num_shares > 0`. -/
def expUpdate (s : ExpState) (batch : List SRow) : ExpState :=
  ⟨s.total + batch.length, s.exposed + batch.countP (fun r => decide (0 < r.shares))⟩

def expFeed (pages : List (List SRow)) : ExpState :=
  pages.foldl expUpdate expInit

def expResult (s : ExpState) : Option ℚ :=
  if s.total = 0 then none
  else some (round4 ((s.exposed : ℚ) / (s.total : ℚ) * 100))

/-! ### Page-split invariance (C3) -/

theorem expUpdate_append (s : ExpState) (p q : List SRow) :
    expUpdate (expUpdate s p) q = expUpdate s (p ++ q) := by
  simp [expUpdate, List.countP_append, Nat.add_assoc]

theorem expFeed_flatten (parts : List (List SRow)) :
    expFeed parts = expUpdate expInit parts.flatten := by
  suffices h : ∀ (s : ExpState), parts.foldl expUpdate s = expUpdate s parts.flatten by
    exact h expInit
  induction parts with
  | nil => intro s; simp [expUpdate]
  | cons p ps ih => intro s; simp [List.foldl_cons, ih, expUpdate_append]

theorem fpFeed_all_nil {parts : List (List SRow)} (h : parts.flatten = []) :
    fpFeed parts = none := by
  rw [List.flatten_eq_nil_iff] at h
  induction parts with
  | nil => rfl
  | cons p ps ih =>
    have hp : p = [] := h p (by simp)
    subst hp
    rw [fpFeed, List.foldl_cons]
    exact ih fun l hl => h l (by simp [hl])

theorem fpFeed_last_nonempty :
    ∀ (parts : List (List SRow)), parts.flatten ≠ [] →
      ∃ q, fpFeed parts = some q ∧ q ≠ [] ∧
        q.getLast? = parts.flatten.getLast? ∧ q.Sublist parts.flatten := by
  intro parts
  induction parts using List.reverseRecOn with
  | nil => intro h; exact absurd rfl h
  | append_singleton ps p ih =>
    intro hne
    have hfold : fpFeed (ps ++ [p]) = fpUpdate (fpFeed ps) p := by
      simp [fpFeed, List.foldl_append]
    rcases eq_or_ne p [] with hp | hp
    · subst hp
      have hne' : ps.flatten ≠ [] := by simpa using hne
      obtain ⟨q, hq, hqne, hqlast, hqsub⟩ := ih hne'
      exact ⟨q, by simpa [hfold, fpUpdate] using hq, hqne,
        by simpa using hqlast, by simpa using hqsub⟩
    · refine ⟨p, ?_, hp, ?_, ?_⟩
      · simp [hfold, fpUpdate, hp]
      · simp [List.getLast?_append_of_ne_nil _ hp]
      · simp only [List.flatten_append, List.flatten_cons, List.flatten_nil,
          List.append_nil]
        exact List.sublist_append_right ps.flatten p

/-- C3, counterexample to the claim as stated: `FinalPortfolioAccumulator`
over two rows arriving out of chronological order gives a different
`result()` when the rows are one page than when they are split into two
pages (one page sorts both rows and reports the later-timestamped one; split
pages retain only the final page). -/
theorem C3_split_counterexample :
    fpResult (fpFeed [[⟨2, "A", 5, 0, 0⟩, ⟨1, "A", 7, 0, 0⟩]]) ≠
      fpResult (fpFeed [[⟨2, "A", 5, 0, 0⟩], [⟨1, "A", 7, 0, 0⟩]]) := by
  norm_num [fpFeed, fpUpdate, fpResult, sortByDt, List.insertionSort,
    List.orderedInsert, round4, round_eq]

/-! ## The Recorder write path (`Observer.__flush_observation_slices`)

The per-stream recorder state: the cumulative `metadata.num_records`, the
in-memory buffer `obs_slices`, and the batches actually appended to the
persisted stream.  `pack` models `pack_observation_pool` appending merged
rows to the buffer; `flush ok` models `__flush_observation_slices`, where
`ok` is the outcome of the underlying file write (`False` = the `open` /
`writerows` call raises and is caught).  Faithful to the source, the flush
increments `num_records` by the buffer size *before* attempting the write,
and on failure retains the buffer. -/

inductive ObsOp (α : Type) where
  | pack (rows : List α)
  | flush (ok : Bool)
  deriving Repr, DecidableEq

structure ObsState (α : Type) where
  numRecords : ℕ
  buffer : List α
  flushed : List (List α)
  deriving Repr, DecidableEq

def obsInit {α : Type} : ObsState α := ⟨0, [], []⟩

def obsStep {α : Type} (fieldNames : List String) (s : ObsState α)
    (op : ObsOp α) : ObsState α :=
  match op with
  | .pack rows => { s with buffer := s.buffer ++ rows }
  | .flush ok =>
      if s.buffer.isEmpty then s
      else
        let s1 := { s with numRecords := s.numRecords + s.buffer.length }
        if fieldNames.isEmpty then s1
        else if ok then { s1 with flushed := s1.flushed ++ [s.buffer], buffer := [] }
        else s1

def obsRun {α : Type} (fieldNames : List String) (ops : List (ObsOp α)) : ObsState α :=
  ops.foldl (obsStep fieldNames) obsInit

/-- The total number of rows in all batches actually appended to the
persisted stream. -/
def flushedSize {α : Type} (s : ObsState α) : ℕ := (s.flushed.map List.length).sum

theorem obsStep_preserves {α : Type} (fieldNames : List String)
    (hfn : fieldNames ≠ [])
    (s : ObsState α) (op : ObsOp α) (hop : op ≠ ObsOp.flush false)
    (h : s.numRecords = flushedSize s) :
    (obsStep fieldNames s op).numRecords = flushedSize (obsStep fieldNames s op) := by
  match op with
  | .pack rows => simpa [obsStep, flushedSize] using h
  | .flush true =>
      have hf : fieldNames.isEmpty = false := by
        simpa [List.isEmpty_iff] using hfn
      by_cases hb : s.buffer.isEmpty
      · simpa [obsStep, hb] using h
      · simp [obsStep, hb, hf, flushedSize, h]
  | .flush false => exact absurd rfl hop

/-- C4 (amended: restricted to runs in which every attempted write succeeds,
with a configured field-name list): after any sequence of pack and flush
operations, the cumulative `num_records` in the stream metadata equals the
sum of the sizes of all batches flushed to the persisted stream. -/
theorem C4_metadata_count_invariant {α : Type} (fieldNames : List String)
    (ops : List (ObsOp α)) (hf : fieldNames ≠ [])
    (hok : ∀ op ∈ ops, op ≠ ObsOp.flush false) :
    (obsRun fieldNames ops).numRecords = flushedSize (obsRun fieldNames ops) := by
  rw [obsRun]
  have hgen : ∀ (l : List (ObsOp α)) (s : ObsState α),
      (∀ op ∈ l, op ≠ ObsOp.flush false) →
      s.numRecords = flushedSize s →
      (l.foldl (obsStep fieldNames) s).numRecords =
        flushedSize (l.foldl (obsStep fieldNames) s) := by
    intro l
    induction l with
    | nil => intro s _ h; exact h
    | cons op l ih =>
      intro s hops h
      rw [List.foldl_cons]
      exact ih _ (fun o ho => hops o (by simp [ho]))
        (obsStep_preserves fieldNames hf s op (hops op (by simp)) h)
  exact hgen ops obsInit hok rfl

/-- Witness for C4: a concrete all-successful run of two packs and two
flushes. -/
theorem C4_metadata_count_witness :
    (obsRun ["dt"] [ObsOp.pack [(0 : ℕ), 1], ObsOp.flush true,
      ObsOp.pack [2], ObsOp.flush true]).numRecords =
    flushedSize (obsRun ["dt"] [ObsOp.pack [(0 : ℕ), 1], ObsOp.flush true,
      ObsOp.pack [2], ObsOp.flush true]) :=
  C4_metadata_count_invariant ["dt"] _ (by decide) (by decide)

/-- C4, counterexample to the claim as stated: a flush whose underlying
write fails has already incremented `num_records` (the code increments the
metadata before attempting the write and retains the buffer on failure), so
after one failed flush of a one-row buffer `num_records = 1` while no batch
was flushed. -/
theorem C4_flush_failure_counterexample :
    (obsRun ["dt"] [ObsOp.pack [(0 : ℕ)], ObsOp.flush false]).numRecords = 1 ∧
    flushedSize (obsRun ["dt"] [ObsOp.pack [(0 : ℕ)], ObsOp.flush false]) = 0 ∧
    (1 : ℕ) ≠ 0 := by
  decide

/-! ## Stream metadata, the Loader, and the Report Engine -/

/-- `ObservationTypeMetadata`: the stream's metadata side-record
`{num_records, tickers, num_tickers}`. -/
structure ObsMeta where
  num_records : ℕ
  tickers : List String
  num_tickers : ℕ
  deriving Repr, DecidableEq

/-- `ObservationLoader.__init__` runs `ObservationTypeMetadata.from_json`,
which does `Path(path).read_text()` unguarded: a missing metadata
side-record (`none`) raises `FileNotFoundError`.  The file system is
modelled by an `Option` of the file's parsed content. -/
def loaderInitMeta (metaFile : Option ObsMeta) : Except String ObsMeta :=
  match metaFile with
  | none => .error "FileNotFoundError"
  | some m => .ok m

/-- `Downsampler._state_meta_num_records`: `0` when the metadata path does
not exist, else the recorded `num_records`. -/
def dsMetaNumRecords (metaFile : Option ObsMeta) : ℕ :=
  match metaFile with
  | none => 0
  | some m => m.num_records

/-- The `total_n` of `Downsampler.run`: the metadata record count, with a
fallback full scan counting the stream's rows when the metadata count is
not positive. -/
def dsTotalN (metaFile : Option ObsMeta) (state : List SRow) : ℕ :=
  let n := dsMetaNumRecords metaFile
  if n = 0 then state.length else n

/-! ### Remaining accumulators needed by the Report Engine -/

/-- `self._pv_by_time[ts] = v` on the insertion-ordered dict, modelled as an
association list. -/
def pvSet (d : List (ℤ × ℚ)) (t : ℤ) (v : ℚ) : List (ℤ × ℚ) :=
  match d with
  | [] => [(t, v)]
  | (t0, v0) :: rest => if t0 = t then (t0, v) :: rest else (t0, v0) :: pvSet rest t v

/-- `self._pv_by_time.get(ts, 0.0)`. -/
def pvGet (d : List (ℤ × ℚ)) (t : ℤ) : ℚ :=
  match d with
  | [] => 0
  | (t0, v0) :: rest => if t0 = t then v0 else pvGet rest t

/-- `PortfolioValueTimeSeriesAccumulator.update`: per row, keep the maximum
portfolio value observed at that timestamp. -/
def pvsUpdate (d : List (ℤ × ℚ)) (batch : List SRow) : List (ℤ × ℚ) :=
  batch.foldl (fun d r => pvSet d r.dt (max (pvGet d r.dt) (pv r))) d

/-- `PortfolioValueTimeSeriesAccumulator.get_series`: the dict items sorted
by timestamp. -/
def pvGetSeries (d : List (ℤ × ℚ)) : List (ℤ × ℚ) := sortPairs d

/-- `MaxDrawdownAccumulator.result`: running peak over the time-sorted
series, then the minimum of `(value - peak) / peak`, times 100, rounded;
`None` on an empty series. -/
def mddResult (d : List (ℤ × ℚ)) : Option ℚ :=
  match pvGetSeries d with
  | [] => none
  | (_, v0) :: rest =>
      let res := rest.foldl
        (fun (acc : ℚ × ℚ) tv =>
          let peak := max acc.1 tv.2
          (peak, min acc.2 ((tv.2 - peak) / peak)))
        (v0, (v0 - v0) / v0)
      some (round4 (res.2 * 100))

/-- `CalmarRatioAccumulator.result`: `total_return / |max_drawdown|`,
`None` when either is undefined or the drawdown is zero. -/
def calmarResult (tr mdd : Option ℚ) : Option ℚ :=
  match tr, mdd with
  | some t, some m => if m = 0 then none else some (round4 (t / |m|))
  | _, _ => none

/-- One `a_type` counter increment of `TradeCountAccumulator`. -/
def tcBump (counts : List (String × ℕ)) (k : String) : List (String × ℕ) :=
  match counts with
  | [] => [(k, 1)]
  | (k0, c) :: rest => if k0 = k then (k0, c + 1) :: rest else (k0, c) :: tcBump rest k

/-- `TradeCountAccumulator.update`: add the batch's per-`a_type`
counts into the running counters. -/
def tcUpdate (counts : List (String × ℕ)) (batch : List TRow) : List (String × ℕ) :=
  batch.foldl (fun c r => tcBump c r.atype) counts

/-- State of `TradingPeriodAccumulator`: running min/max timestamps. -/
structure TPState where
  start : Option ℤ
  stop : Option ℤ
  deriving Repr, DecidableEq

def tpInit : TPState := ⟨none, none⟩

/-- `TradingPeriodAccumulator.update`: skip empty batches, else lower the
running start to the batch minimum and raise the running stop to the batch
maximum. -/
def tpUpdate (s : TPState) (batch : List SRow) : TPState :=
  match batch with
  | [] => s
  | r :: rest =>
      let bmin := rest.foldl (fun m x => min m x.dt) r.dt
      let bmax := rest.foldl (fun m x => max m x.dt) r.dt
      { start := some (match s.start with | none => bmin | some t => min t bmin),
        stop := some (match s.stop with | none => bmax | some t => max t bmax) }

/-- `TradingPeriodAccumulator.result`: `{}` (modelled `none`) before any
data, else start, end and the duration in hours/days/weeks. -/
def tpResult (s : TPState) : Option (ℤ × ℤ × ℚ × ℚ × ℚ) :=
  match s.start, s.stop with
  | some a, some b =>
      let secs : ℚ := ((b - a : ℤ) : ℚ) * 86400
      some (a, b, round2 (secs / 3600), round2 (secs / 86400), round2 (secs / 604800))
  | _, _ => none

/-! ### Page-split invariance of every embedded accumulator (C3) -/

/-- A fold of a per-batch update that itself folds a row step equals the row
fold over the concatenation of the batches. -/
theorem foldl_batches_flatten {α β : Type} (f : β → α → β) :
    ∀ (parts : List (List α)) (s : β),
      parts.foldl (fun d b => b.foldl f d) s = parts.flatten.foldl f s := by
  intro parts
  induction parts with
  | nil => intro s; rfl
  | cons p ps ih =>
    intro s
    rw [List.foldl_cons, List.flatten_cons, List.foldl_append, ih]

theorem foldl_min_dt (l : List SRow) (x y : ℤ) :
    l.foldl (fun m r => min m r.dt) (min x y) =
      min x (l.foldl (fun m r => min m r.dt) y) := by
  induction l generalizing y with
  | nil => rfl
  | cons a t ih =>
    simp only [List.foldl_cons]
    rw [min_assoc]
    exact ih (min y a.dt)

theorem foldl_max_dt (l : List SRow) (x y : ℤ) :
    l.foldl (fun m r => max m r.dt) (max x y) =
      max x (l.foldl (fun m r => max m r.dt) y) := by
  induction l generalizing y with
  | nil => rfl
  | cons a t ih =>
    simp only [List.foldl_cons]
    rw [max_assoc]
    exact ih (max y a.dt)

theorem tpUpdate_append (s : TPState) (p q : List SRow) :
    tpUpdate (tpUpdate s p) q = tpUpdate s (p ++ q) := by
  rcases p with _ | ⟨a, pr⟩
  · simp [tpUpdate]
  rcases q with _ | ⟨b, qr⟩
  · simp [tpUpdate]
  rcases s with ⟨st, sp⟩
  rcases st with _ | t <;> rcases sp with _ | u <;>
    simp [tpUpdate, List.foldl_append, foldl_min_dt, foldl_max_dt,
      min_assoc, max_assoc]

theorem tpFeed_flatten (parts : List (List SRow)) :
    ∀ s : TPState, parts.foldl tpUpdate s = tpUpdate s parts.flatten := by
  induction parts with
  | nil => intro s; rfl
  | cons p ps ih =>
    intro s
    rw [List.foldl_cons, List.flatten_cons, ih, tpUpdate_append]

/-- On a series with strictly increasing timestamps, grouping by timestamp
with the maximum value is the identity. -/
theorem groupMax_strict :
    ∀ l : List (ℤ × ℚ), l.Pairwise (fun a b => a.1 < b.1) →
      groupMaxByDt l = l := by
  intro l
  induction l with
  | nil => intro h; simp only [groupMaxByDt]
  | cons hd tl ih =>
    intro hp
    obtain ⟨t, v⟩ := hd
    rw [List.pairwise_cons] at hp
    have htake : tl.takeWhile (fun p => p.1 == t) = [] := by
      cases tl with
      | nil => rfl
      | cons r rs =>
        have hlt : t < r.1 := hp.1 r (by simp)
        have hne : (r.1 == t) = false := beq_eq_false_iff_ne.mpr (by omega)
        simp [List.takeWhile_cons, hne]
    have hdrop : tl.dropWhile (fun p => p.1 == t) = tl := by
      cases tl with
      | nil => rfl
      | cons r rs =>
        have hlt : t < r.1 := hp.1 r (by simp)
        have hne : (r.1 == t) = false := beq_eq_false_iff_ne.mpr (by omega)
        simp [List.dropWhile_cons, hne]
    simp only [groupMaxByDt]
    rw [htake, hdrop, ih hp.2]
    simp

/-- On a batch with strictly increasing timestamps, one
`StreamingReturnsAccumulator.update` is the plain row-by-row absorb. -/
theorem srUpdate_sorted_strict (s : SRSState) {batch : List SRow}
    (h : batch.Pairwise (fun a b => a.dt < b.dt)) :
    srUpdate s batch =
      (batch.map (fun r => (r.dt, pv r))).foldl srAbsorb s := by
  have hpm : (batch.map (fun r => (r.dt, pv r))).Pairwise
      (fun a b : ℤ × ℚ => a.1 < b.1) := List.pairwise_map.mpr h
  simp only [srUpdate]
  rw [sortByDt_eq_of_sorted (h.imp le_of_lt), groupMax_strict _ hpm]

theorem srFeed_flatten_sorted :
    ∀ (parts : List (List SRow)) (s : SRSState),
      (∀ p ∈ parts, p.Pairwise (fun a b => a.dt < b.dt)) →
      parts.foldl srUpdate s =
        (parts.flatten.map (fun r => (r.dt, pv r))).foldl srAbsorb s := by
  intro parts
  induction parts with
  | nil => intro s h; rfl
  | cons p ps ih =>
    intro s hall
    rw [List.foldl_cons, ih (srUpdate s p) (fun q hq => hall q (by simp [hq])),
      srUpdate_sorted_strict s (hall p (by simp)),
      List.flatten_cons, List.map_append, List.foldl_append]

/-- C3 (amended: restricted to rows fed in chronological order, i.e. with
strictly increasing timestamps): feeding the rows as one page and feeding
them split across arbitrary consecutive page boundaries yield an identical
`result()` for every embedded accumulator — on the state stream
`FinalPortfolioAccumulator`, `ExposureTimeAccumulator`,
`TotalReturnAccumulator`, `PortfolioValueTimeSeriesAccumulator`,
`MaxDrawdownAccumulator`, `CalmarRatioAccumulator`,
`TradingPeriodAccumulator` and `StreamingReturnsAccumulator` (its whole
state agrees, hence so do sharpe, sortino, volatility and the total-return,
trading-period and drawdown payloads), and on the trade stream
`AvgHoldingPeriodAccumulator` and `TradeCountAccumulator`. -/
theorem C3_page_split_invariance :
    (∀ (rows : List SRow) (parts : List (List SRow)),
      rows.Pairwise (fun a b => a.dt < b.dt) → parts.flatten = rows →
      fpResult (fpFeed parts) = fpResult (fpFeed [rows]) ∧
      expResult (expFeed parts) = expResult (expFeed [rows]) ∧
      trFeed parts = trFeed [rows] ∧
      parts.foldl pvsUpdate [] = [rows].foldl pvsUpdate [] ∧
      mddResult (parts.foldl pvsUpdate []) =
        mddResult ([rows].foldl pvsUpdate []) ∧
      calmarResult (trResult (trFeed parts))
          (mddResult (parts.foldl pvsUpdate [])) =
        calmarResult (trResult (trFeed [rows]))
          (mddResult ([rows].foldl pvsUpdate [])) ∧
      parts.foldl tpUpdate tpInit = [rows].foldl tpUpdate tpInit ∧
      srFeed parts = srFeed [rows]) ∧
    (∀ (rows : List TRow) (parts : List (List TRow)),
      rows.Pairwise (fun a b => a.dt < b.dt) → parts.flatten = rows →
      ahpResult (ahpFeed parts) = ahpResult (ahpFeed [rows]) ∧
      parts.foldl tcUpdate [] = [rows].foldl tcUpdate []) := by
  constructor
  · intro rows parts hsorted hjoin
    have hsorted_le : rows.Pairwise (fun a b => a.dt ≤ b.dt) :=
      hsorted.imp le_of_lt
    have hrows_sorted : sortByDt rows = rows := sortByDt_eq_of_sorted hsorted_le
    have hfp : fpResult (fpFeed parts) = fpResult (fpFeed [rows]) := by
      rcases eq_or_ne rows [] with hnil | hne
      · subst hnil
        rw [fpFeed_all_nil hjoin]
        simp [fpFeed, fpUpdate, fpResult]
      · obtain ⟨q, hq, hqne, hqlast, hqsub⟩ :=
          fpFeed_last_nonempty parts (hjoin ▸ hne)
        have hq_sorted : sortByDt q = q :=
          sortByDt_eq_of_sorted (hsorted_le.sublist (hjoin ▸ hqsub))
        have hrhs : fpFeed [rows] = some rows := by
          simp [fpFeed, fpUpdate, hne]
        rw [hq, hrhs, fpResult, fpResult, hq_sorted, hrows_sorted, hqlast, hjoin]
    have hexp : expResult (expFeed parts) = expResult (expFeed [rows]) := by
      rw [expFeed_flatten, hjoin]
      simp [expFeed, expUpdate, expInit]
    have htr : trFeed parts = trFeed [rows] := by
      have hparts_sorted : ∀ p ∈ parts, sortByDt p = p := fun p hp =>
        sortByDt_eq_of_sorted
          (hsorted_le.sublist (hjoin ▸ List.sublist_flatten_of_mem hp))
      have hfold : trFeed parts = parts.flatten.foldl trStep trInit := by
        rw [trFeed]
        have h1 : parts.foldl trUpdate trInit =
            (parts.map sortByDt).flatten.foldl trStep trInit :=
          foldl_pages trStep sortByDt trInit parts
        rw [h1, List.map_congr_left hparts_sorted]
        simp
      have hrhs : trFeed [rows] = rows.foldl trStep trInit := by
        rw [trFeed, List.foldl_cons, List.foldl_nil, trUpdate, hrows_sorted]
      rw [hfold, hrhs, hjoin]
    have hpvs : parts.foldl pvsUpdate [] = [rows].foldl pvsUpdate [] := by
      have hl : parts.foldl pvsUpdate [] =
          parts.flatten.foldl
            (fun d r => pvSet d r.dt (max (pvGet d r.dt) (pv r))) [] :=
        foldl_batches_flatten _ parts []
      rw [hl, hjoin]
      rfl
    have htp : parts.foldl tpUpdate tpInit = [rows].foldl tpUpdate tpInit := by
      rw [tpFeed_flatten parts tpInit, hjoin]
      rfl
    have hsr : srFeed parts = srFeed [rows] := by
      have hparts_strict : ∀ p ∈ parts, p.Pairwise (fun a b => a.dt < b.dt) :=
        fun p hp => hsorted.sublist (hjoin ▸ List.sublist_flatten_of_mem hp)
      have hrhs : srFeed [rows] =
          (rows.map (fun r => (r.dt, pv r))).foldl srAbsorb srInit := by
        rw [srFeed, List.foldl_cons, List.foldl_nil,
          srUpdate_sorted_strict srInit hsorted]
      rw [srFeed, srFeed_flatten_sorted parts srInit hparts_strict, hjoin, hrhs]
    exact ⟨hfp, hexp, htr, hpvs, by rw [hpvs], by rw [htr, hpvs], htp, hsr⟩
  · intro rows parts hsorted hjoin
    have hsorted_le : rows.Pairwise (fun a b => a.dt ≤ b.dt) :=
      hsorted.imp fun h => le_of_lt h
    have hahp : ahpResult (ahpFeed parts) = ahpResult (ahpFeed [rows]) := by
      have hparts_sorted : ∀ p ∈ parts, sortByDtT p = p := by
        intro p hp
        exact sortByDtT_eq_of_sorted
          (hsorted_le.sublist (hjoin ▸ List.sublist_flatten_of_mem hp))
      have hfold : ahpFeed parts = parts.flatten.foldl ahpStep ahpInit := by
        rw [ahpFeed]
        have h1 : parts.foldl ahpUpdate ahpInit =
            (parts.map sortByDtT).flatten.foldl ahpStep ahpInit :=
          foldl_pages ahpStep sortByDtT ahpInit parts
        rw [h1, List.map_congr_left hparts_sorted]
        simp
      have hrhs : ahpFeed [rows] = rows.foldl ahpStep ahpInit := by
        rw [ahpFeed, List.foldl_cons, List.foldl_nil, ahpUpdate,
          sortByDtT_eq_of_sorted hsorted_le]
      rw [hfold, hrhs, hjoin]
    have htc : parts.foldl tcUpdate [] = [rows].foldl tcUpdate [] := by
      have hl : parts.foldl tcUpdate [] =
          parts.flatten.foldl (fun c r => tcBump c r.atype) [] :=
        foldl_batches_flatten _ parts []
      rw [hl, hjoin]
      rfl
    exact ⟨hahp, htc⟩

/-- Witness for C3: a concrete chronologically ordered stream split into two
pages gives the same results and accumulator states as the single page, for
every embedded accumulator. -/
theorem C3_page_split_witness :
    fpResult (fpFeed [[⟨1, "A", 5, 0, 0⟩], [⟨2, "A", 7, 0, 0⟩]]) =
      fpResult (fpFeed [[⟨1, "A", 5, 0, 0⟩, ⟨2, "A", 7, 0, 0⟩]]) ∧
    expResult (expFeed [[⟨1, "A", 5, 0, 0⟩], [⟨2, "A", 7, 0, 0⟩]]) =
      expResult (expFeed [[⟨1, "A", 5, 0, 0⟩, ⟨2, "A", 7, 0, 0⟩]]) ∧
    trFeed [[⟨1, "A", 5, 0, 0⟩], [⟨2, "A", 7, 0, 0⟩]] =
      trFeed [[⟨1, "A", 5, 0, 0⟩, ⟨2, "A", 7, 0, 0⟩]] ∧
    [[⟨1, "A", 5, 0, 0⟩], [⟨2, "A", 7, 0, 0⟩]].foldl pvsUpdate [] =
      [[⟨1, "A", 5, 0, 0⟩, ⟨2, "A", 7, 0, 0⟩]].foldl pvsUpdate [] ∧
    mddResult ([[⟨1, "A", 5, 0, 0⟩], [⟨2, "A", 7, 0, 0⟩]].foldl pvsUpdate []) =
      mddResult ([[⟨1, "A", 5, 0, 0⟩, ⟨2, "A", 7, 0, 0⟩]].foldl pvsUpdate []) ∧
    calmarResult (trResult (trFeed [[⟨1, "A", 5, 0, 0⟩], [⟨2, "A", 7, 0, 0⟩]]))
        (mddResult
          ([[⟨1, "A", 5, 0, 0⟩], [⟨2, "A", 7, 0, 0⟩]].foldl pvsUpdate [])) =
      calmarResult
        (trResult (trFeed [[⟨1, "A", 5, 0, 0⟩, ⟨2, "A", 7, 0, 0⟩]]))
        (mddResult
          ([[⟨1, "A", 5, 0, 0⟩, ⟨2, "A", 7, 0, 0⟩]].foldl pvsUpdate [])) ∧
    [[⟨1, "A", 5, 0, 0⟩], [⟨2, "A", 7, 0, 0⟩]].foldl tpUpdate tpInit =
      [[⟨1, "A", 5, 0, 0⟩, ⟨2, "A", 7, 0, 0⟩]].foldl tpUpdate tpInit ∧
    srFeed [[⟨1, "A", 5, 0, 0⟩], [⟨2, "A", 7, 0, 0⟩]] =
      srFeed [[⟨1, "A", 5, 0, 0⟩, ⟨2, "A", 7, 0, 0⟩]] ∧
    ahpResult (ahpFeed [[⟨0, "A", "buy"⟩], [⟨2, "A", "sell"⟩]]) =
      ahpResult (ahpFeed [[⟨0, "A", "buy"⟩, ⟨2, "A", "sell"⟩]]) ∧
    [[⟨0, "A", "buy"⟩], [⟨2, "A", "sell"⟩]].foldl tcUpdate [] =
      [[⟨0, "A", "buy"⟩, ⟨2, "A", "sell"⟩]].foldl tcUpdate [] := by
  have h1 := C3_page_split_invariance.1
    [⟨1, "A", 5, 0, 0⟩, ⟨2, "A", 7, 0, 0⟩]
    [[⟨1, "A", 5, 0, 0⟩], [⟨2, "A", 7, 0, 0⟩]] (by decide) rfl
  have h2 := C3_page_split_invariance.2
    [⟨0, "A", "buy"⟩, ⟨2, "A", "sell"⟩]
    [[⟨0, "A", "buy"⟩], [⟨2, "A", "sell"⟩]] (by decide) rfl
  exact ⟨h1.1, h1.2.1, h1.2.2.1, h1.2.2.2.1, h1.2.2.2.2.1, h1.2.2.2.2.2.1,
    h1.2.2.2.2.2.2.1, h1.2.2.2.2.2.2.2, h2.1, h2.2⟩

/-! ### Sharpe / Sortino / Volatility (the square-root-valued metrics)

`sharpe()`, `sortino()` and `volatility()` each call `_compute_returns`
(mutating the accumulator state) and then combine the Welford statistics
with the inferred annualization factor.  The float test `std() == 0` holds
exactly when the model variance is nonpositive, since `Real.sqrt` of a
nonpositive rational is `0`. -/

/-- Python `round(x, 4)` on a real value. -/
noncomputable def round4R (x : ℝ) : ℝ := ((round (x * 10000) : ℤ) : ℝ) / 10000

/-- `infer_annualization_factor`: `sqrt(max(1, periods_per_year))` with
`periods_per_year = num_periods / total_days * 365.25`, and `1.0` for fewer
than two periods or zero elapsed days. -/
noncomputable def inferAnnualizationFactor (start stop : ℤ) (numPeriods : ℕ) : ℝ :=
  if numPeriods < 2 then 1
  else
    let totalDays := stop - start
    if totalDays = 0 then 1
    else
      let ppy : ℚ := ((numPeriods : ℚ) / (totalDays : ℚ)) * (1461 / 4)
      Real.sqrt (max 1 (ppy : ℝ))

/-- `StreamingReturnsAccumulator._get_annualization_factor`. -/
noncomputable def srAnnFactor (s : SRSState) : ℝ :=
  match s.firstTs, s.lastTs with
  | some a, some b =>
      if s.numReturns < 2 then 1 else inferAnnualizationFactor a b s.numReturns
  | _, _ => 1

/-- `StreamingReturnsAccumulator._convert_risk_free_rate`: the annual rate
divided by the inferred periods per year, `0` when undefined. -/
def srRfPerPeriod (rf : ℚ) (s : SRSState) : ℚ :=
  match s.firstTs, s.lastTs with
  | some a, some b =>
      if s.numReturns < 2 then 0
      else
        let totalDays := b - a
        if totalDays = 0 then 0
        else rf / (((s.numReturns : ℚ) / (totalDays : ℚ)) * (1461 / 4))
  | _, _ => 0

/-- `StreamingReturnsAccumulator.sharpe`: runs `_compute_returns`, then
`None` when no returns were seen or their deviation is zero, else the
rounded annualized excess-return ratio.  Returns the value together with
the mutated accumulator state. -/
noncomputable def srSharpe (rf : ℚ) (s : SRSState) : Option ℝ × SRSState :=
  let s1 := computeReturns s
  if s1.allR.count = 0 ∨ welfordVariance s1.allR ≤ 0 then (none, s1)
  else
    (some (round4R (((s1.allR.mean - srRfPerPeriod rf s1 : ℚ) : ℝ) /
      welfordStd s1.allR * srAnnFactor s1)), s1)

/-- `StreamingReturnsAccumulator.sortino`: like `sharpe` but guarded on and
divided by the downside deviation. -/
noncomputable def srSortino (rf : ℚ) (s : SRSState) : Option ℝ × SRSState :=
  let s1 := computeReturns s
  if s1.downR.count = 0 ∨ welfordVariance s1.downR ≤ 0 then (none, s1)
  else
    (some (round4R (((s1.allR.mean - srRfPerPeriod rf s1 : ℚ) : ℝ) /
      welfordStd s1.downR * srAnnFactor s1)), s1)

/-- `StreamingReturnsAccumulator.volatility`. -/
noncomputable def srVolatility (s : SRSState) : Option ℝ × SRSState :=
  let s1 := computeReturns s
  if s1.allR.count = 0 then (none, s1)
  else (some (round4R (welfordStd s1.allR * srAnnFactor s1 * 100)), s1)

/-- The engine's report assembly evaluates the `sharpe_ratio`,
`sortino_ratio` and `annualised_volatility_pct` accumulators in dict order,
each delegating to the one shared streaming accumulator and mutating its
state. -/
noncomputable def assembleSRS (rf : ℚ) (s : SRSState) :
    Option ℝ × Option ℝ × Option ℝ :=
  let p1 := srSharpe rf s
  let p2 := srSortino rf p1.2
  let p3 := srVolatility p2.2
  (p1.1, p2.1, p3.1)

/-! ### The Report Engine (`BacktestReportEngine`) -/

/-- The non-internal metric results assembled into `report.json`:
`total_return_pct`, `sharpe_ratio`, `sortino_ratio`,
`annualised_volatility_pct`, `max_drawdown_pct`, `calmar_ratio`,
`exposure_time_pct`, `final_portfolio`, `trading_period`, `trade_counts`,
`avg_holding_period`. -/
structure Metrics where
  totalReturn : Option ℚ
  sharpe : Option ℝ
  sortino : Option ℝ
  volatility : Option ℝ
  maxDrawdown : Option ℚ
  calmar : Option ℚ
  exposure : Option ℚ
  finalPortfolio : Option (ℚ × ℚ × ℚ)
  tradingPeriod : Option (ℤ × ℤ × ℚ × ℚ × ℚ)
  tradeCounts : List (String × ℕ)
  avgHolding : Option (ℚ × ℚ × ℚ)

/-- One full accumulator pass over the state pages and the trade pages,
with the `result()` calls of the three streaming-ratio accumulators
threading the shared streaming state. -/
noncomputable def buildMetrics (rf : ℚ) (spages : List (List SRow))
    (tpages : List (List TRow)) : Metrics :=
  let pvd := spages.foldl pvsUpdate []
  let tr := trResult (trFeed spages)
  let mdd := mddResult pvd
  let srs := assembleSRS rf (srFeed spages)
  { totalReturn := tr
    sharpe := srs.1
    sortino := srs.2.1
    volatility := srs.2.2
    maxDrawdown := mdd
    calmar := calmarResult tr mdd
    exposure := expResult (expFeed spages)
    finalPortfolio := fpResult (fpFeed spages)
    tradingPeriod := tpResult (spages.foldl tpUpdate tpInit)
    tradeCounts := tpages.foldl tcUpdate []
    avgHolding := ahpResult (ahpFeed tpages) }

/-- Per-ticker page filtering of `_process_state`/`_process_trades`:
`batch[batch["ticker"] == t]`, skipping batches whose filtered view is
empty. -/
def entityPagesS (t : String) (pages : List (List SRow)) : List (List SRow) :=
  (pages.map (fun p => p.filter (fun r => r.ticker == t))).filter (fun p => !p.isEmpty)

def entityPagesT (t : String) (pages : List (List TRow)) : List (List TRow) :=
  (pages.map (fun p => p.filter (fun r => r.ticker == t))).filter (fun p => !p.isEmpty)

/-- The assembled report document: cumulative metrics plus one full metric
set per ticker. -/
structure Report where
  cumulative : Metrics
  byTicker : List (String × Metrics)

/-- `BacktestReportEngine.run`: `ObservationLoader.batches` opens each
persisted stream with `pd.read_csv`, which raises `FileNotFoundError` when
the stream file is missing (`none` here; state first, then trades);
otherwise every page is fed to the cumulative accumulator set and to the
per-ticker sets, and the report is assembled. -/
noncomputable def engineRun (riskFree : ℚ) (tickers : List String)
    (stateStream : Option (List (List SRow)))
    (tradeStream : Option (List (List TRow))) : Except String Report :=
  match stateStream with
  | none => .error "FileNotFoundError: state_obs.csv"
  | some spages =>
      match tradeStream with
      | none => .error "FileNotFoundError: trade_obs.csv"
      | some tpages =>
          .ok { cumulative := buildMetrics riskFree spages tpages,
                byTicker := tickers.map fun t =>
                  (t, buildMetrics riskFree (entityPagesS t spages)
                    (entityPagesT t tpages)) }

/-- C5 (amended: a persisted stream that exists but holds zero data rows is
handled; a *missing* stream file is not): when both streams exist and are
empty, the Report Engine completes without raising, and every metric in the
report — `total_return_pct`, `sharpe_ratio`, `sortino_ratio`,
`annualised_volatility_pct`, `max_drawdown_pct`, `calmar_ratio`,
`exposure_time_pct`, `final_portfolio`, `trading_period`, `trade_counts`
and `avg_holding_period`, cumulative and per-ticker — is null/empty. -/
theorem C5_empty_streams_null_metrics (riskFree : ℚ) (tickers : List String) :
    engineRun riskFree tickers (some []) (some []) =
      Except.ok
        { cumulative :=
            ⟨none, none, none, none, none, none, none, none, none, [], none⟩,
          byTicker := tickers.map fun t =>
            (t, ⟨none, none, none, none, none, none, none, none, none, [], none⟩) } :=
  rfl

/-- C5, counterexample to the claim as stated: with the state stream file
missing the engine raises (`pd.read_csv` raises `FileNotFoundError`)
instead of producing a null-metrics report. -/
theorem C5_missing_stream_counterexample :
    engineRun 0 [] none (some []) =
      Except.error "FileNotFoundError: state_obs.csv" := rfl

/-- C6 (amended: only the Downsampler has the fallback): when the metadata
side-record is missing, the Downsampler recovers the true row count by a
full scan (`dsTotalN none state` is the stream's actual length, for every
stream), while `ObservationLoader.__init__` raises `FileNotFoundError`. -/
theorem C6_downsampler_fallback :
    (∀ state : List SRow, dsTotalN none state = state.length) ∧
    loaderInitMeta none = Except.error "FileNotFoundError" :=
  ⟨fun _ => rfl, rfl⟩

/-- C6, counterexample to the claim as stated: the Loader is a read-path
component consuming a persisted stream, and with the metadata side-record
missing its construction fails instead of falling back to a scan. -/
theorem C6_loader_raises_counterexample :
    loaderInitMeta none = Except.error "FileNotFoundError" ∧
    ∀ m : ObsMeta, loaderInitMeta none ≠ Except.ok m := by
  exact ⟨rfl, fun m h => by simp [loaderInitMeta] at h⟩

/-! ## The Downsampler (`Downsampler.run` and `_lttb_indices`)

The state stream is processed in consecutive chunks of `chunk_size` rows as
`pd.read_csv(..., chunksize=...)` yields them.  Per chunk the must-keep rows
are the first row of the whole series, the last row of the whole series and
every row whose timestamp is in the trade-timestamp set; the remaining rows
get a proportional share of the LTTB budget. -/

/-- Split a list into consecutive chunks of `max 1 k` rows. -/
def chunksOf {α : Type} (k : ℕ) (l : List α) : List (List α) :=
  match l with
  | [] => []
  | a :: rest =>
      (a :: rest).take (max 1 k) :: chunksOf k ((a :: rest).drop (max 1 k))
termination_by l.length
decreasing_by
  simp only [List.length_drop, List.length_cons]
  omega

/-- One bucket step of `_lttb_indices`: select, for bucket `b`, the point of
the bucket maximizing the triangle area against the previously selected
point and the next bucket's centroid (first maximum wins), or the bucket's
upper bound when the bucket is empty. -/
def lttbPick (x y : List ℚ) (n : ℕ) (bs : ℚ) (sel : List ℕ) (b : ℕ) : List ℕ :=
  let lo := (⌊1 + (b : ℚ) * bs⌋).toNat
  let hi0 := (⌊1 + ((b : ℚ) + 1) * bs⌋).toNat
  let hi := min hi0 (n - 1)
  if hi ≤ lo then sel ++ [hi]
  else
    let nextHi0 := min (⌊1 + ((b : ℚ) + 2) * bs⌋).toNat n
    let nextHi := if nextHi0 ≤ hi0 then n else nextHi0
    let cnt := nextHi - hi0
    let cx := ((List.range' hi0 cnt).map (fun i => x.getD i 0)).sum / (max 1 cnt : ℕ)
    let cy := ((List.range' hi0 cnt).map (fun i => y.getD i 0)).sum / (max 1 cnt : ℕ)
    let p := sel.getLast?.getD 0
    let px := x.getD p 0
    let py := y.getD p 0
    let best := (List.range' lo (hi - lo)).foldl
      (fun (acc : ℕ × ℚ) i =>
        let area := |(x.getD i 0 - px) * (cy - py) - (cx - px) * (y.getD i 0 - py)|
        if acc.2 < area then (i, area) else acc)
      (lo, -1)
    sel ++ [best.1]

/-- `_lttb_indices(x, y, target)`: all indices when `n <= target or
target <= 2`, else the first index, one pick per interior bucket, and the
last index. -/
def lttbIndices (x y : List ℚ) (target : ℕ) : List ℕ :=
  let n := x.length
  if n ≤ target ∨ target ≤ 2 then List.range n
  else
    let bs : ℚ := ((n : ℚ) - 2) / ((target : ℚ) - 2)
    ((List.range (target - 2)).foldl (lttbPick x y n bs) [0]) ++ [n - 1]

/-- The must-keep test of `Downsampler.run` for the enumerated row `p` of a
chunk of length `n`: first row of the first chunk, last row of the last
chunk, or a timestamp at which some trade occurred. -/
def rowKeep (tradeDts : List ℤ) (totalChunks ci n : ℕ) (p : ℕ × SRow) : Bool :=
  ((ci == 0) && (p.1 == 0)) || ((ci == totalChunks - 1) && (p.1 == n - 1)) ||
    tradeDts.contains p.2.dt

/-- The non-mandatory rows of a chunk, with their positions. -/
def chunkOthers (tradeDts : List ℤ) (totalChunks ci : ℕ) (chunk : List SRow) :
    List (ℕ × SRow) :=
  chunk.enum.filter (fun p => !(rowKeep tradeDts totalChunks ci chunk.length p))

/-- The chunk's LTTB budget: its proportional share
`int(n_chunk / total_n * lttb_budget_total)` of the total budget `B`, capped
at the chunk's non-mandatory row count. -/
def chunkBudget (B totalN : ℕ) (chunk : List SRow) (nOther : ℕ) : ℕ :=
  min (chunk.length * B / totalN) nOther

/-- The LTTB index selection over the non-mandatory subset: only the first
and last of that subset when the budget is at most 2, else `_lttb_indices`
on positions versus `_value`. -/
def chunkSel (others : List (ℕ × SRow)) (budget : ℕ) : List ℕ :=
  if budget ≤ 2 then
    (if 1 < others.length then [0, others.length - 1]
     else List.range others.length)
  else
    lttbIndices ((List.range others.length).map (fun i : ℕ => (i : ℚ)))
      (others.map (fun p => pv p.2)) budget

/-- The chunk positions of the LTTB-selected non-mandatory rows
(`other_df.index[lttb_sel]`). -/
def chunkSelPos (others : List (ℕ × SRow)) (budget : ℕ) : List ℕ :=
  (chunkSel others budget).filterMap (fun j => (others.get? j).map Prod.fst)

/-- The rows of one chunk retained by `Downsampler.run` (with positions):
the must-keep rows, plus — when there are non-mandatory rows and a nonzero
budget — the LTTB selection over the non-mandatory subset. -/
def chunkSelect (tradeDts : List ℤ) (B totalN totalChunks ci : ℕ)
    (chunk : List SRow) : List (ℕ × SRow) :=
  if (chunkOthers tradeDts totalChunks ci chunk).length = 0 ∨
      chunkBudget B totalN chunk (chunkOthers tradeDts totalChunks ci chunk).length = 0
  then chunk.enum.filter (fun p => rowKeep tradeDts totalChunks ci chunk.length p)
  else
    chunk.enum.filter (fun p =>
      rowKeep tradeDts totalChunks ci chunk.length p ||
        (chunkSelPos (chunkOthers tradeDts totalChunks ci chunk)
          (chunkBudget B totalN chunk
            (chunkOthers tradeDts totalChunks ci chunk).length)).contains p.1)

/-- The output columns `PLOT_OUTPUT_COLUMNS = [dt, ticker, s_close]`. -/
def plotRow (r : SRow) : ℤ × String × ℚ := (r.dt, r.ticker, r.close)

/-- The chunk loop of `Downsampler.run`, appending each chunk's retained
rows to the output. -/
def dsChunks (tradeDts : List ℤ) (B totalN totalChunks : ℕ) :
    ℕ → List (List SRow) → List (ℤ × String × ℚ)
  | _, [] => []
  | ci, c :: rest =>
      (chunkSelect tradeDts B totalN totalChunks ci c).map (fun p => plotRow p.2)
        ++ dsChunks tradeDts B totalN totalChunks (ci + 1) rest

/-- `Downsampler.run`: empty output when the stream has no rows; else the
trade-timestamp set is collected, the total LTTB budget is
`max(0, target_size - 2 - len(trade_dts))`, and the state stream is
processed chunk by chunk.  (`target_size` is clamped to at least 2 and
`chunk_size` to at least 1 by `__init__`.) -/
def dsRun (metaFile : Option ObsMeta) (targetSize chunkSize : ℕ)
    (state : List SRow) (tradeDts : List ℤ) : List (ℤ × String × ℚ) :=
  let target := max 2 targetSize
  let cs := max 1 chunkSize
  let totalN := dsTotalN metaFile state
  if totalN = 0 then []
  else
    let B := target - 2 - tradeDts.dedup.length
    let totalChunks := max 1 ((totalN + cs - 1) / cs)
    dsChunks tradeDts B totalN totalChunks 0 (chunksOf cs state)

theorem chunksOf_nil {α : Type} (k : ℕ) : chunksOf k ([] : List α) = [] := by
  rw [chunksOf]

theorem chunksOf_cons {α : Type} (k : ℕ) (a : α) (rest : List α) :
    chunksOf k (a :: rest) =
      (a :: rest).take (max 1 k) :: chunksOf k ((a :: rest).drop (max 1 k)) := by
  rw [chunksOf]

theorem chunksOf_flatten {α : Type} (k : ℕ) (l : List α) :
    (chunksOf k l).flatten = l := by
  induction l using chunksOf.induct k with
  | case1 => rw [chunksOf_nil]; rfl
  | case2 a rest ih =>
      rw [chunksOf_cons, List.flatten_cons, ih, List.take_append_drop]

theorem chunksOf_ne_nil {α : Type} (k : ℕ) (l : List α) :
    ∀ c ∈ chunksOf k l, c ≠ [] := by
  induction l using chunksOf.induct k with
  | case1 => rw [chunksOf_nil]; intro c hc; cases hc
  | case2 a rest ih =>
      intro c hc
      rw [chunksOf_cons] at hc
      rcases List.mem_cons.mp hc with h | h
      · subst h
        simp [Nat.le_max_left]
      · exact ih c h

theorem chunksOf_length_le {α : Type} (k : ℕ) (l : List α) :
    ∀ c ∈ chunksOf k l, c.length ≤ max 1 k := by
  induction l using chunksOf.induct k with
  | case1 => rw [chunksOf_nil]; intro c hc; cases hc
  | case2 a rest ih =>
      intro c hc
      rw [chunksOf_cons] at hc
      rcases List.mem_cons.mp hc with h | h
      · subst h
        exact List.length_take_le _ _
      · exact ih c h

theorem chunksOf_count {α : Type} (k : ℕ) (l : List α) (h : l ≠ []) :
    (chunksOf k l).length = (l.length + max 1 k - 1) / max 1 k := by
  induction l using chunksOf.induct k with
  | case1 => exact absurd rfl h
  | case2 a rest ih =>
      rw [chunksOf_cons, List.length_cons]
      rcases eq_or_ne ((a :: rest).drop (max 1 k)) [] with hd | hd
      · rw [hd, chunksOf_nil]
        have hlen : (a :: rest).length ≤ max 1 k := by
          by_contra hcon
          have h0 : ((a :: rest).drop (max 1 k)).length = 0 := by rw [hd]; rfl
          rw [List.length_drop] at h0
          omega
        have h1 : 1 ≤ (a :: rest).length := by simp
        have hk : 1 ≤ max 1 k := Nat.le_max_left 1 k
        have hdiv : ((a :: rest).length + max 1 k - 1) / max 1 k = 1 :=
          Nat.div_eq_of_lt_le (by omega) (by omega)
        rw [List.length_nil, hdiv]
      · rw [ih hd, List.length_drop]
        have hlen : max 1 k < (a :: rest).length := by
          by_contra hcon
          push_neg at hcon
          have h0 : ((a :: rest).drop (max 1 k)).length = 0 := by
            rw [List.length_drop]; omega
          exact hd (List.eq_nil_of_length_eq_zero h0)
        have hk : 1 ≤ max 1 k := Nat.le_max_left 1 k
        have heq : (a :: rest).length + max 1 k - 1 =
            ((a :: rest).length - max 1 k + max 1 k - 1) + max 1 k := by omega
        rw [heq, Nat.add_div_right _ (by omega)]

theorem flatten_getLast_chunk {α : Type} :
    ∀ (L : List (List α)), (∀ c ∈ L, c ≠ []) → L ≠ [] →
      ∃ c, L.get? (L.length - 1) = some c ∧ c.getLast? = L.flatten.getLast? := by
  intro L
  induction L with
  | nil => intro _ h; exact absurd rfl h
  | cons c L ih =>
      intro hne _
      rcases eq_or_ne L [] with hL | hL
      · subst hL
        exact ⟨c, rfl, by simp⟩
      · obtain ⟨c1, hc1, hlast⟩ := ih (fun x hx => hne x (by simp [hx])) hL
        have hLpos : 1 ≤ L.length := by
          cases L with
          | nil => exact absurd rfl hL
          | cons _ _ => simp
        refine ⟨c1, ?_, ?_⟩
        · rw [List.length_cons]
          have : c :: L = c :: L := rfl
          have hidx : c1 ∈ [c1] := by simp
          have : (c :: L).get? (L.length - 1 + 1) = L.get? (L.length - 1) := rfl
          rw [show L.length + 1 - 1 = (L.length - 1) + 1 by omega, this, hc1]
        · have hfl : L.flatten ≠ [] := by
            intro hcon
            rcases List.exists_mem_of_ne_nil L hL with ⟨x, hx⟩
            exact hne x (by simp [hx]) (List.flatten_eq_nil_iff.mp hcon x hx)
          rw [List.flatten_cons, List.getLast?_append_of_ne_nil _ hfl, hlast]

theorem countP_or_le {α : Type} (p q : α → Bool) (l : List α) :
    l.countP (fun x => p x || q x) ≤ l.countP p + l.countP q := by
  induction l with
  | nil => simp
  | cons a l ih =>
      simp only [List.countP_cons]
      cases hp : p a <;> cases hq : q a <;> simp [hp, hq] <;> omega

theorem countP_beq_le_one {α β : Type} [BEq β] [LawfulBEq β] (f : α → β) (k : β)
    (l : List α) (h : (l.map f).Nodup) : l.countP (fun x => f x == k) ≤ 1 := by
  induction l with
  | nil => simp
  | cons a l ih =>
      rw [List.map_cons, List.nodup_cons] at h
      rw [List.countP_cons]
      by_cases hfa : (f a == k) = true
      · have h0 : l.countP (fun x => f x == k) = 0 := by
          rw [List.countP_eq_zero]
          intro x hx hcon
          apply h.1
          have hxa : f x = f a := by
            have h1 : f x = k := by simpa using hcon
            have h2 : f a = k := by simpa using hfa
            rw [h1, h2]
          exact hxa ▸ List.mem_map_of_mem f hx
        simp [hfa, h0]
      · simp only [hfa, if_false]
        simpa using ih h.2

theorem countP_enumFrom_snd {α : Type} (q : α → Bool) :
    ∀ (l : List α) (n : ℕ),
      (l.enumFrom n).countP (fun p => q p.2) = l.countP q := by
  intro l
  induction l with
  | nil => intro n; rfl
  | cons a l ih =>
      intro n
      rw [List.enumFrom_cons, List.countP_cons, List.countP_cons, ih]

theorem countP_enum_snd {α : Type} (q : α → Bool) (l : List α) :
    l.enum.countP (fun p => q p.2) = l.countP q :=
  countP_enumFrom_snd q l 0

theorem length_filter_contains_le {α β : Type} [BEq β] [LawfulBEq β]
    (f : α → β) (l : List α) (hnd : (l.map f).Nodup) (s : List β) :
    (l.filter (fun x => s.contains (f x))).length ≤ s.length := by
  set d := l.filter (fun x => s.contains (f x)) with hd
  have hsub : (d.map f) ⊆ s := by
    intro b hb
    obtain ⟨x, hx, hfx⟩ := List.mem_map.mp hb
    have hxl := List.of_mem_filter (hd ▸ hx)
    rw [hfx] at hxl
    exact (List.elem_iff).mp hxl
  have hnodup : (d.map f).Nodup :=
    hnd.sublist ((List.filter_sublist l).map f)
  calc d.length = (d.map f).length := (List.length_map d f).symm
    _ ≤ s.length := (List.subperm_of_subset hnodup hsub).length_le

theorem nat_add_div_le (a b m : ℕ) : a / m + b / m ≤ (a + b) / m := by
  rcases Nat.eq_zero_or_pos m with h | h
  · subst h; simp
  · rw [Nat.le_div_iff_mul_le h, Nat.add_mul]
    exact Nat.add_le_add (Nat.div_mul_le_self a m) (Nat.div_mul_le_self b m)

theorem lttbPick_length (x y : List ℚ) (n : ℕ) (bs : ℚ) (sel : List ℕ) (b : ℕ) :
    (lttbPick x y n bs sel b).length = sel.length + 1 := by
  rw [lttbPick]
  split <;> simp

theorem lttb_foldl_length (x y : List ℚ) (n : ℕ) (bs : ℚ) :
    ∀ (L : List ℕ) (sel : List ℕ),
      (L.foldl (lttbPick x y n bs) sel).length = sel.length + L.length := by
  intro L
  induction L with
  | nil => intro sel; rfl
  | cons b L ih =>
      intro sel
      rw [List.foldl_cons, ih, lttbPick_length, List.length_cons]
      omega

theorem lttbIndices_length (x y : List ℚ) (target : ℕ) :
    (lttbIndices x y target).length =
      if x.length ≤ target ∨ target ≤ 2 then x.length else target := by
  rw [lttbIndices]
  split
  · simp
  · rename_i hcond
    push_neg at hcond
    rw [List.length_append, lttb_foldl_length, List.length_range]
    simp only [List.length_cons, List.length_nil, List.length_singleton]
    omega

theorem chunkSelect_mem_of_keep {tradeDts : List ℤ} {B totalN totalChunks ci : ℕ}
    {chunk : List SRow} {p : ℕ × SRow} (hp : p ∈ chunk.enum)
    (hk : rowKeep tradeDts totalChunks ci chunk.length p = true) :
    p ∈ chunkSelect tradeDts B totalN totalChunks ci chunk := by
  rw [chunkSelect]
  split
  · exact List.mem_filter.mpr ⟨hp, hk⟩
  · exact List.mem_filter.mpr ⟨hp, by simp [hk]⟩

theorem chunkSel_length_le (others : List (ℕ × SRow)) (budget : ℕ)
    (h1 : budget ≠ 0) :
    (chunkSel others budget).length ≤ budget + 1 := by
  rw [chunkSel]
  split
  · split
    · simp only [List.length_cons, List.length_nil]
      omega
    · rename_i hlen
      push_neg at hlen
      simp only [List.length_range]
      omega
  · rename_i hb2
    push_neg at hb2
    rw [lttbIndices_length]
    simp only [List.length_map, List.length_range]
    split
    · rename_i hc
      rcases hc with hc | hc <;> omega
    · omega

theorem countP_rowKeep_le (tradeDts : List ℤ) (totalChunks ci : ℕ)
    (chunk : List SRow) :
    chunk.enum.countP (fun p => rowKeep tradeDts totalChunks ci chunk.length p) ≤
      (if ci = 0 then 1 else 0) + (if ci = totalChunks - 1 then 1 else 0)
      + chunk.countP (fun r => tradeDts.contains r.dt) := by
  have hnd : (chunk.enum.map Prod.fst).Nodup := by
    rw [List.enum_map_fst]; exact List.nodup_range _
  have h1 : chunk.enum.countP (fun p => (ci == 0) && (p.1 == 0)) ≤
      (if ci = 0 then 1 else 0) := by
    by_cases hci : ci = 0
    · subst hci
      simp only [if_pos rfl]
      calc chunk.enum.countP (fun p => (0 == 0) && (p.1 == 0))
          = chunk.enum.countP (fun p => p.1 == 0) := by
            apply List.countP_congr
            intro p _
            simp
        _ ≤ 1 := countP_beq_le_one Prod.fst 0 chunk.enum hnd
    · have : chunk.enum.countP (fun p => (ci == 0) && (p.1 == 0)) = 0 := by
        rw [List.countP_eq_zero]
        intro p _
        simp [hci]
      omega
  have h2 : chunk.enum.countP
      (fun p => (ci == totalChunks - 1) && (p.1 == chunk.length - 1)) ≤
      (if ci = totalChunks - 1 then 1 else 0) := by
    by_cases hci : ci = totalChunks - 1
    · rw [if_pos hci]
      calc chunk.enum.countP
            (fun p => (ci == totalChunks - 1) && (p.1 == chunk.length - 1))
          = chunk.enum.countP (fun p => p.1 == chunk.length - 1) := by
            apply List.countP_congr
            intro p _
            simp [hci]
        _ ≤ 1 := countP_beq_le_one Prod.fst (chunk.length - 1) chunk.enum hnd
    · have : chunk.enum.countP
          (fun p => (ci == totalChunks - 1) && (p.1 == chunk.length - 1)) = 0 := by
        rw [List.countP_eq_zero]
        intro p _
        simp [hci]
      omega
  have h3 : chunk.enum.countP (fun p => tradeDts.contains p.2.dt) =
      chunk.countP (fun r => tradeDts.contains r.dt) :=
    countP_enum_snd (fun r => tradeDts.contains r.dt) chunk
  have hsplit := countP_or_le
    (fun p : ℕ × SRow => ((ci == 0) && (p.1 == 0)) ||
      ((ci == totalChunks - 1) && (p.1 == chunk.length - 1)))
    (fun p => tradeDts.contains p.2.dt) chunk.enum
  have hsplit2 := countP_or_le
    (fun p : ℕ × SRow => (ci == 0) && (p.1 == 0))
    (fun p => (ci == totalChunks - 1) && (p.1 == chunk.length - 1)) chunk.enum
  have heq : chunk.enum.countP
      (fun p => rowKeep tradeDts totalChunks ci chunk.length p) =
      chunk.enum.countP (fun p => (((ci == 0) && (p.1 == 0)) ||
        ((ci == totalChunks - 1) && (p.1 == chunk.length - 1))) ||
        tradeDts.contains p.2.dt) := by
    apply List.countP_congr
    intro p _
    simp [rowKeep, Bool.or_assoc]
  omega

theorem chunkSelect_length_le (tradeDts : List ℤ) (B totalN totalChunks ci : ℕ)
    (chunk : List SRow) :
    (chunkSelect tradeDts B totalN totalChunks ci chunk).length ≤
      (if ci = 0 then 1 else 0) + (if ci = totalChunks - 1 then 1 else 0)
      + chunk.countP (fun r => tradeDts.contains r.dt)
      + chunk.length * B / totalN + 1 := by
  have hnd : (chunk.enum.map Prod.fst).Nodup := by
    rw [List.enum_map_fst]; exact List.nodup_range _
  have hmk := countP_rowKeep_le tradeDts totalChunks ci chunk
  rw [chunkSelect]
  split
  · rw [← List.countP_eq_length_filter]
    generalize chunk.length * B / totalN = raw
    omega
  · rename_i hcond
    push_neg at hcond
    obtain ⟨hlen0, hbud0⟩ := hcond
    set others := chunkOthers tradeDts totalChunks ci chunk with hothers
    set budget := chunkBudget B totalN chunk others.length with hbudget
    have hb_raw : budget ≤ chunk.length * B / totalN := Nat.min_le_left _ _
    have hb_len : budget ≤ others.length := Nat.min_le_right _ _
    have hsel := chunkSel_length_le others budget hbud0
    have hselpos : (chunkSelPos others budget).length ≤ (chunkSel others budget).length :=
      List.length_filterMap_le _ _
    have hor := countP_or_le
      (fun p : ℕ × SRow => rowKeep tradeDts totalChunks ci chunk.length p)
      (fun p => (chunkSelPos others budget).contains p.1) chunk.enum
    have hcontains : chunk.enum.countP
        (fun p => (chunkSelPos others budget).contains p.1) ≤
        (chunkSelPos others budget).length := by
      rw [List.countP_eq_length_filter]
      exact length_filter_contains_le Prod.fst chunk.enum hnd _
    rw [← List.countP_eq_length_filter]
    generalize hraw : chunk.length * B / totalN = raw at hb_raw ⊢
    omega

theorem mem_enum_of_get? {α : Type} {l : List α} {i : ℕ} {a : α}
    (h : l.get? i = some a) : (i, a) ∈ l.enum := by
  rw [List.get?_eq_getElem?] at h
  exact List.mem_enum_iff_getElem?.mpr h

theorem dsChunks_mem (tradeDts : List ℤ) (B totalN totalChunks : ℕ) :
    ∀ (L : List (List SRow)) (ci₀ i : ℕ) (c : List SRow) (p : ℕ × SRow),
      L.get? i = some c →
      p ∈ chunkSelect tradeDts B totalN totalChunks (ci₀ + i) c →
      plotRow p.2 ∈ dsChunks tradeDts B totalN totalChunks ci₀ L := by
  intro L
  induction L with
  | nil => intro ci₀ i c p h _; simp at h
  | cons c0 rest ih =>
      intro ci₀ i c p hget hp
      cases i with
      | zero =>
          have hc : c0 = c := by simpa using hget
          subst hc
          rw [Nat.add_zero] at hp
          exact List.mem_append_left _ (List.mem_map_of_mem _ hp)
      | succ j =>
          have hget' : rest.get? j = some c := by simpa using hget
          have hci : ci₀ + (j + 1) = (ci₀ + 1) + j := by omega
          rw [hci] at hp
          exact List.mem_append_right _ (ih (ci₀ + 1) j c p hget' hp)

theorem countP_flatten_eq {α : Type} (q : α → Bool) :
    ∀ (L : List (List α)), L.flatten.countP q = (L.map (fun c => c.countP q)).sum := by
  intro L
  induction L with
  | nil => rfl
  | cons c rest ih =>
      rw [List.flatten_cons, List.countP_append, ih, List.map_cons, List.sum_cons]

theorem sum_map_div_le {α : Type} (f : α → ℕ) (m : ℕ) :
    ∀ (L : List α), (L.map (fun c => f c / m)).sum ≤ (L.map f).sum / m := by
  intro L
  induction L with
  | nil => simp
  | cons c rest ih =>
      rw [List.map_cons, List.sum_cons, List.map_cons, List.sum_cons]
      calc f c / m + (rest.map (fun c => f c / m)).sum
          ≤ f c / m + (rest.map f).sum / m := Nat.add_le_add_left ih _
        _ ≤ (f c + (rest.map f).sum) / m := nat_add_div_le _ _ _

theorem sum_map_mul_const {α : Type} (f : α → ℕ) (b : ℕ) :
    ∀ (L : List α), (L.map (fun c => f c * b)).sum = (L.map f).sum * b := by
  intro L
  induction L with
  | nil => simp
  | cons c rest ih =>
      rw [List.map_cons, List.sum_cons, List.map_cons, List.sum_cons, ih,
        Nat.add_mul]

theorem dsChunks_length_le (tradeDts : List ℤ) (B totalN totalChunks : ℕ) :
    ∀ (L : List (List SRow)) (ci₀ : ℕ),
      (dsChunks tradeDts B totalN totalChunks ci₀ L).length ≤
        (List.range' ci₀ L.length).countP (fun i => i == 0)
        + (List.range' ci₀ L.length).countP (fun i => i == totalChunks - 1)
        + (L.map (fun c => c.countP (fun r => tradeDts.contains r.dt))).sum
        + (L.map (fun c => c.length * B / totalN)).sum
        + L.length := by
  intro L
  induction L with
  | nil => intro ci₀; simp [dsChunks]
  | cons c0 rest ih =>
      intro ci₀
      have h1 := chunkSelect_length_le tradeDts B totalN totalChunks ci₀ c0
      have h2 := ih (ci₀ + 1)
      rw [dsChunks, List.length_append, List.length_map, List.length_cons,
        List.range'_succ, List.countP_cons, List.countP_cons, List.map_cons,
        List.sum_cons, List.map_cons, List.sum_cons]
      have e1 : (if (ci₀ == 0) = true then 1 else 0) = (if ci₀ = 0 then 1 else 0) := by
        by_cases h : ci₀ = 0 <;> simp [h]
      have e2 : (if (ci₀ == totalChunks - 1) = true then 1 else 0) =
          (if ci₀ = totalChunks - 1 then 1 else 0) := by
        by_cases h : ci₀ = totalChunks - 1 <;> simp [h]
      generalize hraw : c0.length * B / totalN = raw at h1 ⊢
      omega

/-- C2 (amended: the size bound is weakened): under correct (or missing,
hence re-scanned) stream metadata, the Downsampler's output contains the
first row of the whole state series, the last row of the whole state series,
and every state row whose timestamp equals some trade timestamp; the number
of output rows is at most `max 2 target_size` plus the number of chunks plus
the number of trade-coinciding state rows. -/
theorem C2_downsampler_must_keep :
    ∀ (meta : Option ObsMeta) (targetSize chunkSize : ℕ) (state : List SRow)
      (tradeDts : List ℤ),
      dsTotalN meta state = state.length → state ≠ [] →
      (∀ r, state.head? = some r →
        plotRow r ∈ dsRun meta targetSize chunkSize state tradeDts) ∧
      (∀ r, state.getLast? = some r →
        plotRow r ∈ dsRun meta targetSize chunkSize state tradeDts) ∧
      (∀ r ∈ state, r.dt ∈ tradeDts →
        plotRow r ∈ dsRun meta targetSize chunkSize state tradeDts) ∧
      (dsRun meta targetSize chunkSize state tradeDts).length ≤
        max 2 targetSize + (chunksOf (max 1 chunkSize) state).length +
          state.countP (fun r => tradeDts.contains r.dt) := by
  intro meta target chunkSize state tradeDts hmeta hne
  have hflat : (chunksOf (max 1 chunkSize) state).flatten = state :=
    chunksOf_flatten (max 1 chunkSize) state
  have hnonnil := chunksOf_ne_nil (max 1 chunkSize) state
  have hLne : chunksOf (max 1 chunkSize) state ≠ [] := by
    intro h
    apply hne
    rw [← hflat, h]
    rfl
  have hlenpos : 0 < state.length := List.length_pos.mpr hne
  have hne0 : ¬(state.length = 0) := by omega
  have hcs1 : 1 ≤ max 1 chunkSize := Nat.le_max_left 1 chunkSize
  have hmax : max 1 (max 1 chunkSize) = max 1 chunkSize :=
    max_eq_right hcs1
  have hcount : (chunksOf (max 1 chunkSize) state).length =
      (state.length + max 1 chunkSize - 1) / max 1 chunkSize := by
    rw [chunksOf_count (max 1 chunkSize) state hne, hmax]
  have hceil : 1 ≤ (state.length + max 1 chunkSize - 1) / max 1 chunkSize := by
    rw [Nat.one_le_div_iff (by omega)]
    omega
  have htc : max 1 ((state.length + max 1 chunkSize - 1) / max 1 chunkSize) =
      (chunksOf (max 1 chunkSize) state).length := by
    rw [hcount]
    omega
  have hrun : dsRun meta target chunkSize state tradeDts =
      dsChunks tradeDts (max 2 target - 2 - tradeDts.dedup.length) state.length
        (chunksOf (max 1 chunkSize) state).length 0
        (chunksOf (max 1 chunkSize) state) := by
    simp only [dsRun, hmeta, if_neg hne0, htc]
  refine ⟨?_, ?_, ?_, ?_⟩
  · intro r hr
    obtain ⟨s0, srest, hstate⟩ : ∃ a l, state = a :: l := by
      cases state with
      | nil => exact absurd rfl hne
      | cons a l => exact ⟨a, l, rfl⟩
    subst hstate
    obtain rfl : s0 = r := by simpa using hr
    obtain ⟨m, hm⟩ : ∃ m, max 1 chunkSize = m + 1 :=
      ⟨max 1 chunkSize - 1, by omega⟩
    have hc0get : (chunksOf (max 1 chunkSize) (s0 :: srest)).get? 0 =
        some (s0 :: srest.take m) := by
      rw [chunksOf_cons, hmax, hm, List.take_succ_cons]
      rfl
    have hpmem : ((0 : ℕ), s0) ∈ (s0 :: srest.take m).enum :=
      mem_enum_of_get? rfl
    have hkeep : rowKeep tradeDts (chunksOf (max 1 chunkSize) (s0 :: srest)).length
        0 (s0 :: srest.take m).length ((0 : ℕ), s0) = true := by
      simp [rowKeep]
    rw [hrun]
    exact dsChunks_mem tradeDts _ _ _ _ 0 0 _ ((0 : ℕ), s0) hc0get
      (chunkSelect_mem_of_keep hpmem hkeep)
  · intro r hr
    obtain ⟨c, hcget, hclast⟩ :=
      flatten_getLast_chunk (chunksOf (max 1 chunkSize) state) hnonnil hLne
    have hlast_r : c.getLast? = some r := by rw [hclast, hflat]; exact hr
    have hcget' : c.get? (c.length - 1) = some r := by
      rw [List.get?_eq_getElem?, ← List.getLast?_eq_getElem?]
      exact hlast_r
    have hpmem : (c.length - 1, r) ∈ c.enum :=
      mem_enum_of_get? hcget'
    have hkeep : rowKeep tradeDts (chunksOf (max 1 chunkSize) state).length
        (0 + ((chunksOf (max 1 chunkSize) state).length - 1)) c.length
        (c.length - 1, r) = true := by
      simp [rowKeep]
    rw [hrun]
    exact dsChunks_mem tradeDts _ _ _ _ 0 _ c (c.length - 1, r) hcget
      (chunkSelect_mem_of_keep hpmem hkeep)
  · intro r hrmem hrdts
    have hrfl : r ∈ (chunksOf (max 1 chunkSize) state).flatten := by
      rw [hflat]; exact hrmem
    obtain ⟨c, hcL, hrc⟩ := List.mem_flatten.mp hrfl
    obtain ⟨i, hio⟩ := List.get?_of_mem hcL
    obtain ⟨j, hjo⟩ := List.get?_of_mem hrc
    have hpmem : (j, r) ∈ c.enum := mem_enum_of_get? hjo
    have hkeep : rowKeep tradeDts (chunksOf (max 1 chunkSize) state).length
        (0 + i) c.length (j, r) = true := by
      simp [rowKeep, hrdts]
    rw [hrun]
    exact dsChunks_mem tradeDts _ _ _ _ 0 i c (j, r) hio
      (chunkSelect_mem_of_keep hpmem hkeep)
  · rw [hrun]
    refine le_trans (dsChunks_length_le tradeDts _ state.length _ _ 0) ?_
    have hnd : ((List.range' 0 (chunksOf (max 1 chunkSize) state).length).map
        (fun x => x)).Nodup := by
      simpa using List.nodup_range' 0 (chunksOf (max 1 chunkSize) state).length
    have hc0 : (List.range' 0 (chunksOf (max 1 chunkSize) state).length).countP
        (fun i => i == 0) ≤ 1 := countP_beq_le_one (fun x => x) 0 _ hnd
    have hcl : (List.range' 0 (chunksOf (max 1 chunkSize) state).length).countP
        (fun i => i == (chunksOf (max 1 chunkSize) state).length - 1) ≤ 1 :=
      countP_beq_le_one (fun x => x) _ _ hnd
    have hK : ((chunksOf (max 1 chunkSize) state).map
        (fun c => c.countP (fun r => tradeDts.contains r.dt))).sum =
        state.countP (fun r => tradeDts.contains r.dt) := by
      rw [← countP_flatten_eq, hflat]
    have hB : ((chunksOf (max 1 chunkSize) state).map
        (fun c => c.length * (max 2 target - 2 - tradeDts.dedup.length) /
          state.length)).sum ≤ max 2 target - 2 - tradeDts.dedup.length := by
      refine le_trans (sum_map_div_le _ state.length _) ?_
      rw [sum_map_mul_const, ← List.length_flatten, hflat,
        Nat.mul_div_cancel_left _ hlenpos]
    omega

theorem enum_fst_injective {α : Type} {l : List α} {p q : ℕ × α}
    (hp : p ∈ l.enum) (hq : q ∈ l.enum) (h : p.1 = q.1) : p = q := by
  have hp' := List.mem_enum_iff_getElem?.mp hp
  have hq' := List.mem_enum_iff_getElem?.mp hq
  rw [← h] at hq'
  exact Prod.ext h (Option.some.inj (hp'.symm.trans hq'))

theorem chunkOthers_sublist (tradeDts : List ℤ) (totalChunks ci : ℕ)
    (chunk : List SRow) :
    (chunkOthers tradeDts totalChunks ci chunk).Sublist chunk.enum :=
  List.filter_sublist chunk.enum

theorem chunkOthers_not_keep {tradeDts : List ℤ} {totalChunks ci : ℕ}
    {chunk : List SRow} {p : ℕ × SRow}
    (hp : p ∈ chunkOthers tradeDts totalChunks ci chunk) :
    rowKeep tradeDts totalChunks ci chunk.length p = false := by
  have := List.of_mem_filter hp
  simpa using this

theorem mem_chunkSelPos_of_get? {others : List (ℕ × SRow)} {budget : ℕ}
    {j : ℕ} {p : ℕ × SRow} (hj : others.get? j = some p)
    (hsel : j ∈ chunkSel others budget) : p.1 ∈ chunkSelPos others budget := by
  rw [chunkSelPos, List.mem_filterMap]
  exact ⟨j, hsel, by rw [hj]; rfl⟩

theorem contains_of_mem {α : Type} [BEq α] [LawfulBEq α] {a : α} {l : List α}
    (h : a ∈ l) : l.contains a = true :=
  List.elem_eq_true_of_mem h

/-- C9 (amended: a zero budget keeps no non-mandatory point, rather than the
first and last): for every chunk of the Downsampler, (a) if the number of
non-mandatory points is at most the chunk's budget share, all of them are
kept; (b) if the (capped) budget is between 1 and 2, exactly the first and
last points of the non-mandatory subset are kept; (c) if the budget is 0, no
non-mandatory point is kept. -/
theorem C9_lttb_degenerate_cases :
    ∀ (tradeDts : List ℤ) (B totalN totalChunks ci : ℕ) (chunk : List SRow),
      ((chunkOthers tradeDts totalChunks ci chunk).length ≤
          chunk.length * B / totalN →
        ∀ p ∈ chunkOthers tradeDts totalChunks ci chunk,
          p ∈ chunkSelect tradeDts B totalN totalChunks ci chunk) ∧
      (1 ≤ chunkBudget B totalN chunk
          (chunkOthers tradeDts totalChunks ci chunk).length →
       chunkBudget B totalN chunk
          (chunkOthers tradeDts totalChunks ci chunk).length ≤ 2 →
        ∀ p ∈ chunkOthers tradeDts totalChunks ci chunk,
          (p ∈ chunkSelect tradeDts B totalN totalChunks ci chunk ↔
            (chunkOthers tradeDts totalChunks ci chunk).head? = some p ∨
            (chunkOthers tradeDts totalChunks ci chunk).getLast? = some p)) ∧
      (chunkBudget B totalN chunk
          (chunkOthers tradeDts totalChunks ci chunk).length = 0 →
        ∀ p ∈ chunkOthers tradeDts totalChunks ci chunk,
          p ∉ chunkSelect tradeDts B totalN totalChunks ci chunk) := by
  intro tradeDts B totalN totalChunks ci chunk
  refine ⟨?_, ?_, ?_⟩
  · intro hle p hp
    have hpe := (chunkOthers_sublist tradeDts totalChunks ci chunk).subset hp
    have hmkF := chunkOthers_not_keep hp
    by_cases hn0 : (chunkOthers tradeDts totalChunks ci chunk).length = 0
    · rw [List.length_eq_zero] at hn0
      rw [hn0] at hp
      cases hp
    · have hbud : chunkBudget B totalN chunk
          (chunkOthers tradeDts totalChunks ci chunk).length =
          (chunkOthers tradeDts totalChunks ci chunk).length :=
        min_eq_right hle
      have hcond : ¬((chunkOthers tradeDts totalChunks ci chunk).length = 0 ∨
          chunkBudget B totalN chunk
            (chunkOthers tradeDts totalChunks ci chunk).length = 0) := by
        rw [hbud]
        push_neg
        exact ⟨hn0, hn0⟩
      rw [chunkSelect, if_neg hcond]
      obtain ⟨j, hj⟩ := List.get?_of_mem hp
      have hjlt : j < (chunkOthers tradeDts totalChunks ci chunk).length := by
        rcases List.get?_eq_some.mp hj with ⟨h, _⟩
        exact h
      have hsel : j ∈ chunkSel (chunkOthers tradeDts totalChunks ci chunk)
          (chunkBudget B totalN chunk
            (chunkOthers tradeDts totalChunks ci chunk).length) := by
        rw [hbud, chunkSel]
        split
        · split
          · rename_i hlen1
            have hj01 : j = 0 ∨ j = (chunkOthers tradeDts totalChunks ci chunk).length - 1 := by
              rename_i hb2
              omega
            rcases hj01 with h | h <;> simp [h]
          · exact List.mem_range.mpr hjlt
        · have hxlen : ((List.range
              (chunkOthers tradeDts totalChunks ci chunk).length).map
                (fun i : ℕ => (i : ℚ))).length =
              (chunkOthers tradeDts totalChunks ci chunk).length := by
            rw [List.length_map, List.length_range]
          simp only [lttbIndices]
          rw [hxlen, if_pos (Or.inl le_rfl)]
          exact List.mem_range.mpr hjlt
      refine List.mem_filter.mpr ⟨hpe, ?_⟩
      rw [hmkF, Bool.false_or]
      exact contains_of_mem (mem_chunkSelPos_of_get? hj hsel)
  · intro hb1 hb2 p hp
    have hpe := (chunkOthers_sublist tradeDts totalChunks ci chunk).subset hp
    have hmkF := chunkOthers_not_keep hp
    have hble : chunkBudget B totalN chunk
        (chunkOthers tradeDts totalChunks ci chunk).length ≤
        (chunkOthers tradeDts totalChunks ci chunk).length :=
      Nat.min_le_right _ _
    have hcond : ¬((chunkOthers tradeDts totalChunks ci chunk).length = 0 ∨
        chunkBudget B totalN chunk
          (chunkOthers tradeDts totalChunks ci chunk).length = 0) := by
      omega
    rw [chunkSelect, if_neg hcond]
    have hselEq : chunkSel (chunkOthers tradeDts totalChunks ci chunk)
        (chunkBudget B totalN chunk
          (chunkOthers tradeDts totalChunks ci chunk).length) =
        (if 1 < (chunkOthers tradeDts totalChunks ci chunk).length
         then [0, (chunkOthers tradeDts totalChunks ci chunk).length - 1]
         else List.range (chunkOthers tradeDts totalChunks ci chunk).length) := by
      rw [chunkSel, if_pos hb2]
    by_cases hlen1 : 1 < (chunkOthers tradeDts totalChunks ci chunk).length
    · obtain ⟨o0, h0⟩ : ∃ o0, (chunkOthers tradeDts totalChunks ci chunk).get? 0 =
          some o0 := ⟨_, List.get?_eq_get (by omega)⟩
      obtain ⟨ol, hl⟩ : ∃ ol, (chunkOthers tradeDts totalChunks ci chunk).get?
          ((chunkOthers tradeDts totalChunks ci chunk).length - 1) = some ol :=
        ⟨_, List.get?_eq_get (by omega)⟩
      have ho0mem : o0 ∈ chunk.enum :=
        (chunkOthers_sublist tradeDts totalChunks ci chunk).subset (List.get?_mem h0)
      have holmem : ol ∈ chunk.enum :=
        (chunkOthers_sublist tradeDts totalChunks ci chunk).subset (List.get?_mem hl)
      have h0e : (chunkOthers tradeDts totalChunks ci chunk)[(0 : ℕ)]? = some o0 := by
        rw [← List.get?_eq_getElem?]
        exact h0
      have hle2 : (chunkOthers tradeDts totalChunks ci chunk)[
          (chunkOthers tradeDts totalChunks ci chunk).length - 1]? = some ol := by
        rw [← List.get?_eq_getElem?]
        exact hl
      have hselPos : chunkSelPos (chunkOthers tradeDts totalChunks ci chunk)
          (chunkBudget B totalN chunk
            (chunkOthers tradeDts totalChunks ci chunk).length) = [o0.1, ol.1] := by
        rw [chunkSelPos, hselEq, if_pos hlen1]
        simp [List.filterMap_cons, h0e, hle2]
      have hhead : (chunkOthers tradeDts totalChunks ci chunk).head? = some o0 := by
        rw [← List.get?_zero]
        exact h0
      have hlast : (chunkOthers tradeDts totalChunks ci chunk).getLast? = some ol := by
        rw [List.getLast?_eq_getElem?, ← List.get?_eq_getElem?]
        exact hl
      constructor
      · intro hmem
        have hc := (List.mem_filter.mp hmem).2
        rw [hmkF, Bool.false_or, hselPos] at hc
        have hmem2 : p.1 = o0.1 ∨ p.1 = ol.1 := by
          have := List.elem_iff.mp hc
          simpa using this
        rcases hmem2 with h | h
        · left
          rw [hhead, enum_fst_injective hpe ho0mem h]
        · right
          rw [hlast, enum_fst_injective hpe holmem h]
      · intro hor
        refine List.mem_filter.mpr ⟨hpe, ?_⟩
        rw [hmkF, Bool.false_or, hselPos]
        rcases hor with h | h
        · have hpo : o0 = p := Option.some.inj (hhead.symm.trans h)
          rw [← hpo]
          exact contains_of_mem (by simp)
        · have hpo : ol = p := Option.some.inj (hlast.symm.trans h)
          rw [← hpo]
          exact contains_of_mem (by simp)
    · have hlen : (chunkOthers tradeDts totalChunks ci chunk).length = 1 := by omega
      obtain ⟨o0, h0⟩ : ∃ o0, (chunkOthers tradeDts totalChunks ci chunk).get? 0 =
          some o0 := ⟨_, List.get?_eq_get (by omega)⟩
      have h0e : (chunkOthers tradeDts totalChunks ci chunk)[(0 : ℕ)]? = some o0 := by
        rw [← List.get?_eq_getElem?]
        exact h0
      have hrange1 : List.range 1 = [0] := rfl
      have hselPos : chunkSelPos (chunkOthers tradeDts totalChunks ci chunk)
          (chunkBudget B totalN chunk
            (chunkOthers tradeDts totalChunks ci chunk).length) = [o0.1] := by
        rw [chunkSelPos, hselEq, if_neg hlen1, hlen, hrange1]
        simp [List.filterMap_cons, h0e]
      have hhead : (chunkOthers tradeDts totalChunks ci chunk).head? = some o0 := by
        rw [← List.get?_zero]
        exact h0
      have hp0 : p = o0 := by
        obtain ⟨j, hj⟩ := List.get?_of_mem hp
        have hjlt : j < 1 := by
          rcases List.get?_eq_some.mp hj with ⟨h, _⟩
          omega
        interval_cases j
        exact Option.some.inj (hj.symm.trans h0)
      constructor
      · intro _
        left
        rw [hhead, hp0]
      · intro _
        refine List.mem_filter.mpr ⟨hpe, ?_⟩
        rw [hmkF, Bool.false_or, hselPos, hp0]
        exact contains_of_mem (by simp)
  · intro hb0 p hp
    have hmkF := chunkOthers_not_keep hp
    rw [chunkSelect, if_pos (Or.inr hb0)]
    intro hmem
    have hc := (List.mem_filter.mp hmem).2
    rw [hmkF] at hc
    cases hc

/-- Witness for C2: a three-row stream in two chunks with one trade
timestamp retains the first row, the last row and the trade-coinciding row,
within the amended bound. -/
theorem C2_downsampler_witness :
    plotRow ⟨0, "A", 1, 0, 0⟩ ∈
      dsRun none 10 2 [⟨0, "A", 1, 0, 0⟩, ⟨1, "A", 2, 0, 0⟩, ⟨2, "A", 3, 0, 0⟩] [1] ∧
    plotRow ⟨2, "A", 3, 0, 0⟩ ∈
      dsRun none 10 2 [⟨0, "A", 1, 0, 0⟩, ⟨1, "A", 2, 0, 0⟩, ⟨2, "A", 3, 0, 0⟩] [1] ∧
    plotRow ⟨1, "A", 2, 0, 0⟩ ∈
      dsRun none 10 2 [⟨0, "A", 1, 0, 0⟩, ⟨1, "A", 2, 0, 0⟩, ⟨2, "A", 3, 0, 0⟩] [1] ∧
    (dsRun none 10 2 [⟨0, "A", 1, 0, 0⟩, ⟨1, "A", 2, 0, 0⟩, ⟨2, "A", 3, 0, 0⟩]
        [1]).length ≤
      max 2 10 + (chunksOf (max 1 2)
        [(⟨0, "A", 1, 0, 0⟩ : SRow), ⟨1, "A", 2, 0, 0⟩, ⟨2, "A", 3, 0, 0⟩]).length +
      ([(⟨0, "A", 1, 0, 0⟩ : SRow), ⟨1, "A", 2, 0, 0⟩, ⟨2, "A", 3, 0, 0⟩].countP
        (fun r => ([1] : List ℤ).contains r.dt)) := by
  obtain ⟨h1, h2, h3, h4⟩ := C2_downsampler_must_keep none 10 2
    [⟨0, "A", 1, 0, 0⟩, ⟨1, "A", 2, 0, 0⟩, ⟨2, "A", 3, 0, 0⟩] [1] rfl (by simp)
  exact ⟨h1 _ rfl, h2 _ rfl, h3 _ (by simp) (by simp), h4⟩

/-- Witness for C9: a five-row single chunk.  With budget share 5 every
non-mandatory row is kept; with capped budget 2 the first non-mandatory row
is kept (it is the head of the subset); with total budget 0 it is not. -/
theorem C9_degenerate_witness :
    ((1 : ℕ), (⟨1, "A", 1, 0, 0⟩ : SRow)) ∈ chunkSelect [] 5 5 1 0
      [⟨0, "A", 1, 0, 0⟩, ⟨1, "A", 1, 0, 0⟩, ⟨2, "A", 1, 0, 0⟩,
       ⟨3, "A", 1, 0, 0⟩, ⟨4, "A", 1, 0, 0⟩] ∧
    ((1 : ℕ), (⟨1, "A", 1, 0, 0⟩ : SRow)) ∈ chunkSelect [] 2 5 1 0
      [⟨0, "A", 1, 0, 0⟩, ⟨1, "A", 1, 0, 0⟩, ⟨2, "A", 1, 0, 0⟩,
       ⟨3, "A", 1, 0, 0⟩, ⟨4, "A", 1, 0, 0⟩] ∧
    ((1 : ℕ), (⟨1, "A", 1, 0, 0⟩ : SRow)) ∉ chunkSelect [] 0 5 1 0
      [⟨0, "A", 1, 0, 0⟩, ⟨1, "A", 1, 0, 0⟩, ⟨2, "A", 1, 0, 0⟩,
       ⟨3, "A", 1, 0, 0⟩, ⟨4, "A", 1, 0, 0⟩] := by
  refine ⟨?_, ?_, ?_⟩
  · exact (C9_lttb_degenerate_cases [] 5 5 1 0 _).1 (by decide) _ (by decide)
  · exact ((C9_lttb_degenerate_cases [] 2 5 1 0 _).2.1 (by decide) (by decide) _
      (by decide)).mpr (Or.inl (by decide))
  · exact (C9_lttb_degenerate_cases [] 0 5 1 0 _).2.2 (by decide) _ (by decide)

/-- C2, counterexample to the claim as stated: six state rows sharing one
trade timestamp are all must-keep, so with `target_size = 5` the output has
6 rows — more than `target_size`. -/
theorem C2_size_bound_counterexample :
    (dsRun none 5 10
      [⟨0, "A", 1, 0, 0⟩, ⟨0, "B", 1, 0, 0⟩, ⟨0, "C", 1, 0, 0⟩,
       ⟨0, "D", 1, 0, 0⟩, ⟨0, "E", 1, 0, 0⟩, ⟨0, "F", 1, 0, 0⟩] [0]).length = 6 ∧
    ¬((dsRun none 5 10
      [⟨0, "A", 1, 0, 0⟩, ⟨0, "B", 1, 0, 0⟩, ⟨0, "C", 1, 0, 0⟩,
       ⟨0, "D", 1, 0, 0⟩, ⟨0, "E", 1, 0, 0⟩, ⟨0, "F", 1, 0, 0⟩] [0]).length ≤ 5) := by
  have h : dsRun none 5 10
      [⟨0, "A", 1, 0, 0⟩, ⟨0, "B", 1, 0, 0⟩, ⟨0, "C", 1, 0, 0⟩,
       ⟨0, "D", 1, 0, 0⟩, ⟨0, "E", 1, 0, 0⟩, ⟨0, "F", 1, 0, 0⟩] [0] =
      [(0, "A", 0), (0, "B", 0), (0, "C", 0), (0, "D", 0), (0, "E", 0), (0, "F", 0)] := by
    simp [dsRun, dsTotalN, dsMetaNumRecords, chunksOf_cons, chunksOf_nil,
      dsChunks, chunkSelect, chunkOthers, chunkBudget, rowKeep, plotRow,
      List.enum, List.enumFrom, List.filter]
  rw [h]
  simp

/-- C9, counterexample to the claim as stated: with `target_size = 2` the
chunk budget is `0`; the non-mandatory subset is the two middle rows, and
the code keeps neither of them — not "the first and last of the
non-mandatory subset" the claim demands. -/
theorem C9_budget_zero_counterexample :
    chunkOthers [] 1 0
      [⟨0, "A", 1, 0, 0⟩, ⟨1, "A", 1, 0, 0⟩, ⟨2, "A", 1, 0, 0⟩, ⟨3, "A", 1, 0, 0⟩] =
      [((1 : ℕ), ⟨1, "A", 1, 0, 0⟩), ((2 : ℕ), ⟨2, "A", 1, 0, 0⟩)] ∧
    plotRow ⟨1, "A", 1, 0, 0⟩ ∉ dsRun none 2 10
      [⟨0, "A", 1, 0, 0⟩, ⟨1, "A", 1, 0, 0⟩, ⟨2, "A", 1, 0, 0⟩, ⟨3, "A", 1, 0, 0⟩] [] ∧
    plotRow ⟨2, "A", 1, 0, 0⟩ ∉ dsRun none 2 10
      [⟨0, "A", 1, 0, 0⟩, ⟨1, "A", 1, 0, 0⟩, ⟨2, "A", 1, 0, 0⟩, ⟨3, "A", 1, 0, 0⟩] [] := by
  have h : dsRun none 2 10
      [⟨0, "A", 1, 0, 0⟩, ⟨1, "A", 1, 0, 0⟩, ⟨2, "A", 1, 0, 0⟩, ⟨3, "A", 1, 0, 0⟩] [] =
      [(0, "A", 0), (3, "A", 0)] := by
    simp [dsRun, dsTotalN, dsMetaNumRecords, chunksOf_cons, chunksOf_nil,
      dsChunks, chunkSelect, chunkOthers, chunkBudget, rowKeep, plotRow,
      List.enum, List.enumFrom, List.filter]
  refine ⟨by decide, ?_, ?_⟩ <;> rw [h] <;> decide

end Backtester
